import Mathlib

/-!
Verification of the coala `coalib/core/Core.py` scheduler.

The Python module is shallowly embedded: bears are identified by natural
numbers, the per-bear data (declared dependencies, generated tasks and the
outcome `analyze` produces for each task) is a `BearSpec`, and the mutable
state of a session (the `running_tasks` dict, the dependency tracker's
`dependency_dict`, the results forwarded to the result callback, the number
of `event_loop.stop()` calls) is a `SchedState`.  `schedule_bears` and
`finish_task` are translated statement by statement; the nondeterministic
order in which the event loop delivers task completions is modelled by an
explicit list of `(bear, task)` events, restricted by `validEvents` to the
completions the process pool can actually report (each in-flight task
completes exactly once).
-/

namespace Coala

/-- A bear is identified by a natural number (`bear.name` in the source). -/
abbrev Bear := Nat

/-- A task handle: the index of the task in the sequence produced by
`bear.generate_tasks()`. -/
abbrev TaskId := Nat

/-- What `task.result()` yields for one completed task: either the finite
list of results produced by `bear.analyze`, or a raised exception. -/
inductive TaskOutcome where
| ok : List Nat → TaskOutcome
| fault : TaskOutcome
deriving DecidableEq, Repr

/-- Static per-bear data: the declared dependencies of each bear and, for
each task generated by `generate_tasks()`, the outcome its execution
produces.  `tasks b` has one element per generated task. -/
structure BearSpec where
deps : Bear → List Bear
tasks : Bear → List TaskOutcome

/-- Association-list lookup, the embedding of Python dict indexing. -/
def alookup {α : Type} : List (Nat × α) → Nat → Option α
| [], _ => none
| (k, v) :: rest, k' => if k = k' then some v else alookup rest k'

/-- Association-list assignment `m[k] = v` (replace the existing entry for
`k`, or append a new one), the embedding of Python dict assignment. -/
def aset {α : Type} : List (Nat × α) → Nat → α → List (Nat × α)
| [], k, v => [(k, v)]
| (k', v') :: rest, k, v =>
    if k' = k then (k, v) :: rest else (k', v') :: aset rest k v

/-- Association-list deletion `del m[k]`. -/
def adel {α : Type} (m : List (Nat × α)) (k : Nat) : List (Nat × α) :=
m.filter (fun p => !(p.1 == k))

/-- The keys of an association list. -/
def keysOf {α : Type} (m : List (Nat × α)) : List Nat :=
m.map (fun p => p.1)

/-- The mutable state of a scheduling session.  `runningTasks` is the
`running_tasks` dict (bear to set of in-flight task handles), `depDict` is
the dependency tracker's `dependency_dict` (bear to unresolved
dependencies), `submitted` logs each bear whose tasks were handed to the
executor (the else-branch of `schedule_bears`), `heldBack` logs each bear
found still blocked at scheduling time (the debug-log branch), `resolved`
logs each call to `dependency_tracker.resolve`, `sink` is the sequence of
results forwarded to `result_callback`, and `stopSignals` counts the calls
to `event_loop.stop()`. -/
structure SchedState where
runningTasks : List (Bear × List TaskId)
depDict : List (Bear × List Bear)
submitted : List Bear
heldBack : List Bear
resolved : List Bear
sink : List Nat
stopSignals : Nat
deriving DecidableEq, Repr

/-- Modelled from the spec: `DependencyTracker.add_bear_dependencies` is
imported by `Core.py` but its source is not part of this repository
snapshot.  Following section 4.1 of the specification, for every bear of
the input set it records an edge to each declared dependency that is also
present in the input set; a bear whose recorded set is empty is ready,
which `schedule_bears` tests by membership in `dependency_dict`, so only
bears with at least one unresolved in-set dependency get an entry. -/
def addBearDependencies (spec : BearSpec) (bears : List Bear) :
    List (Bear × List Bear) :=
(bears.map (fun b => (b, (spec.deps b).filter (fun d => decide (d ∈ bears))))).filter
  (fun p => !p.2.isEmpty)

/-- Modelled from the spec: `DependencyTracker.resolve` is imported by
`Core.py` but its source is not part of this repository snapshot.
Following section 4.1 of the specification, resolving `b` removes `b` from
every bear's unresolved-dependency set; every bear whose set thereby
becomes empty loses its entry and is returned as newly ready.  Returns the
new `dependency_dict` together with the newly ready bears. -/
def trackerResolve (dd : List (Bear × List Bear)) (b : Bear) :
    List (Bear × List Bear) × List Bear :=
let dd2 := dd.map (fun p => (p.1, p.2.filter (fun d => !(d == b))))
(dd2.filter (fun p => !p.2.isEmpty),
 (dd2.filter (fun p => p.2.isEmpty)).map (fun p => p.1))

/-- One iteration of the loop in `schedule_bears` (Core.py lines 43-59):
a bear still present in `dependency_dict` is logged as held back; any
other bear has all its generated tasks submitted to the executor (the set
of futures is modelled by the list of task indices) and is logged as
scheduled. -/
def scheduleOne (spec : BearSpec) (st : SchedState) (bear : Bear) : SchedState :=
match alookup st.depDict bear with
| some _ => { st with heldBack := st.heldBack ++ [bear] }
| none =>
    { st with
      runningTasks :=
        aset st.runningTasks bear (List.range (spec.tasks bear).length),
      submitted := st.submitted ++ [bear] }

/-- `schedule_bears` (Core.py lines 18-59): iterate `scheduleOne` over the
given bears. -/
def scheduleBears (spec : BearSpec) (bears : List Bear) (st : SchedState) :
    SchedState :=
bears.foldl (scheduleOne spec) st

/-- `finish_task` (Core.py lines 62-110), the done-callback of one task.
`task.result()` either returns the result list (forwarded one by one to
`result_callback`) or raises; the source has no exception handling
(`# TODO Handle exceptions!!!`), so on a fault the callback aborts before
mutating any state and the exception escapes to the event loop — the
returned Bool records whether an exception escaped.  On the normal path
the handle is removed from the bear's set; if that set became empty the
bear is resolved, any newly ready bears are scheduled and the bear's entry
is deleted; finally `event_loop.stop()` is called iff the whole
`running_tasks` dict is empty. -/
def finishTask (spec : BearSpec) (bear : Bear) (task : TaskId)
    (st : SchedState) : SchedState × Bool :=
match (spec.tasks bear).get? task with
| some (TaskOutcome.ok rs) =>
    let st1 : SchedState := { st with sink := st.sink ++ rs }
    let ts := (alookup st1.runningTasks bear).getD []
    let ts2 := ts.filter (fun t => !(t == task))
    let st2 : SchedState :=
      if ts2.isEmpty then
        let st3 : SchedState :=
          { st1 with runningTasks := aset st1.runningTasks bear ts2 }
        let rr := trackerResolve st3.depDict bear
        let st4 : SchedState :=
          { st3 with depDict := rr.1, resolved := st3.resolved ++ [bear] }
        let st5 : SchedState :=
          if rr.2.isEmpty then st4 else scheduleBears spec rr.2 st4
        { st5 with runningTasks := adel st5.runningTasks bear }
      else
        { st1 with runningTasks := aset st1.runningTasks bear ts2 }
    if st2.runningTasks.isEmpty then
      ({ st2 with stopSignals := st2.stopSignals + 1 }, false)
    else
      (st2, false)
| _ => (st, true)

/-- The state of a session right after `run` (Core.py lines 144-170) has
built the dependency tracker and performed the initial `schedule_bears`
call with an empty `running_tasks` dict. -/
def initState (spec : BearSpec) (bears : List Bear) : SchedState :=
scheduleBears spec bears
  { runningTasks := [], depDict := addBearDependencies spec bears,
    submitted := [], heldBack := [], resolved := [], sink := [],
    stopSignals := 0 }

/-- Process a sequence of task-completion events delivered by the event
loop, one `finish_task` callback per event. -/
def runEvents (spec : BearSpec) (st : SchedState) :
    List (Bear × TaskId) → SchedState
| [] => st
| e :: rest => runEvents spec (finishTask spec e.1 e.2 st).1 rest

/-- A whole session: initial scheduling followed by a sequence of
completion events. -/
def runSession (spec : BearSpec) (bears : List Bear)
    (events : List (Bear × TaskId)) : SchedState :=
runEvents spec (initState spec bears) events

/-- The completion sequences the process pool can actually deliver: each
event names a task currently in flight (a member of its bear's entry in
`running_tasks`); the pool reports each submitted future exactly once. -/
def validEvents (spec : BearSpec) (st : SchedState) :
    List (Bear × TaskId) → Bool
| [] => true
| e :: rest =>
    ((alookup st.runningTasks e.1).getD []).contains e.2 &&
    validEvents spec (finishTask spec e.1 e.2 st).1 rest

/-- No further completion event can ever be delivered: every entry of
`running_tasks` has an empty handle set. -/
def maximalState (st : SchedState) : Bool :=
st.runningTasks.all (fun p => p.2.isEmpty)

/-- The outcome of `open(filename).readlines()` for one file: the line-split
content, a `UnicodeDecodeError`, or an `OSError`. -/
inductive ReadOutcome where
| content : List String → ReadOutcome
| decodeError : ReadOutcome
| osError : ReadOutcome
deriving DecidableEq, Repr

/-- Dict lookup for string keys (for the file dictionary). -/
def slookup {α : Type} : List (String × α) → String → Option α
| [], _ => none
| (k, v) :: rest, k' => if k = k' then some v else slookup rest k'

/-- Dict assignment for string keys. -/
def sset {α : Type} : List (String × α) → String → α → List (String × α)
| [], k, v => [(k, v)]
| (k', v') :: rest, k, v =>
    if k' = k then (k, v) :: rest else (k', v') :: sset rest k v

/-- `load_files` (Core.py lines 114-141): iterate over the filenames,
reading each one; a successful read stores the line-split content in the
file dictionary, while a `UnicodeDecodeError` or an `OSError` logs a
warning and leaves the file out.  The file system is a function from
filename to read outcome; returns the file dictionary together with the
list of filenames a warning was logged for. -/
def load_files (fs : String → ReadOutcome) (filenames : List String) :
    List (String × List String) × List String :=
filenames.foldl
  (fun acc filename =>
    match fs filename with
    | ReadOutcome.content lines => (sset acc.1 filename lines, acc.2)
    | ReadOutcome.decodeError => (acc.1, acc.2 ++ [filename])
    | ReadOutcome.osError => (acc.1, acc.2 ++ [filename]))
  ([], [])

/-- The releasable resources `run` creates (Core.py lines 160-163): the
asyncio event loop and the process pool executor. -/
structure RunResources where
loopClosed : Bool
executorReleased : Bool
deriving DecidableEq, Repr

/-- The teardown `run` performs on the way out (Core.py lines 171-174):
the `finally` block of `run` contains exactly one statement,
`event_loop.close()`; no shutdown or release of the executor appears
anywhere in the function. -/
def runTeardown (r : RunResources) : RunResources :=
{ r with loopClosed := true }

/-- The resources as created by `run`: neither released yet. -/
def freshResources : RunResources :=
{ loopClosed := false, executorReleased := false }

/-! ### Concrete instances used by witnesses and counterexamples -/

/-- Zero-task instance: bear 0 generates no tasks, bear 1 depends on
bear 0 and has one task. -/
def specZ : BearSpec where
deps := fun b => if b = 1 then [0] else []
tasks := fun b => if b = 1 then [TaskOutcome.ok [5]] else []

/-- Cyclic instance: bears 0 and 1 depend on each other; both generate a
task, so the hang is not the zero-task defect. -/
def specC : BearSpec where
deps := fun b => if b = 0 then [1] else if b = 1 then [0] else []
tasks := fun _ => [TaskOutcome.ok [1]]

/-- Diamond instance: bear 3 depends on bears 1 and 2, which both depend
on bear 0; every bear generates exactly one task. -/
def specD : BearSpec where
deps := fun b =>
  if b = 1 then [0] else if b = 2 then [0] else if b = 3 then [1, 2] else []
tasks := fun b => [TaskOutcome.ok [b + 10]]

/-- Faulting instance: bear 0 has a single task whose execution raises;
bear 2 is independent with one normal task. -/
def specF : BearSpec where
deps := fun _ => []
tasks := fun b =>
  if b = 0 then [TaskOutcome.fault] else [TaskOutcome.ok [b]]

/-- Two-task instance: independent bear with two tasks. -/
def specT : BearSpec where
deps := fun _ => []
tasks := fun _ => [TaskOutcome.ok [1], TaskOutcome.ok [2]]

/-- A concrete little file system for the `load_files` witness. -/
def fsEx : String → ReadOutcome
| "good" => ReadOutcome.content ["line1\n", "line2\n"]
| "bad" => ReadOutcome.decodeError
| "gone" => ReadOutcome.osError
| _ => ReadOutcome.content []

/-! ### Association-list lemmas -/

theorem keysOf_nil {α : Type} : keysOf ([] : List (Nat × α)) = [] := rfl

theorem keysOf_cons {α : Type} (p : Nat × α) (m : List (Nat × α)) :
    keysOf (p :: m) = p.1 :: keysOf m := rfl

theorem alookup_mem {α : Type} {m : List (Nat × α)} {k : Nat} {v : α}
    (h : alookup m k = some v) : (k, v) ∈ m := by
induction m with
| nil => simp [alookup] at h
| cons p rest ih =>
    cases p with
    | mk a b =>
      rw [alookup] at h
      by_cases hk : a = k
      · rw [if_pos hk] at h
        have hb : b = v := by injection h
        subst hk; subst hb
        exact List.mem_cons_self _ _
      · rw [if_neg hk] at h
        exact List.mem_cons_of_mem _ (ih h)

theorem mem_keysOf_iff_isSome {α : Type} {m : List (Nat × α)} {k : Nat} :
    k ∈ keysOf m ↔ (alookup m k).isSome := by
induction m with
| nil => simp [keysOf_nil, alookup]
| cons p rest ih =>
    cases p with
    | mk a b =>
      rw [keysOf_cons, List.mem_cons, alookup]
      by_cases hk : a = k
      · subst hk; simp
      · rw [if_neg hk, ← ih]
        constructor
        · rintro (h | h)
          · exact absurd h.symm hk
          · exact h
        · exact fun h => Or.inr h

theorem alookup_eq_none_iff {α : Type} {m : List (Nat × α)} {k : Nat} :
    alookup m k = none ↔ k ∉ keysOf m := by
rw [mem_keysOf_iff_isSome]
cases h : alookup m k <;> simp [h]

theorem alookup_aset_self {α : Type} (m : List (Nat × α)) (k : Nat) (v : α) :
    alookup (aset m k v) k = some v := by
induction m with
| nil => simp [aset, alookup]
| cons p rest ih =>
    cases p with
    | mk a b =>
      rw [aset]
      by_cases hk : a = k
      · rw [if_pos hk, alookup, if_pos rfl]
      · rw [if_neg hk, alookup, if_neg hk]
        exact ih

theorem alookup_aset_ne {α : Type} (m : List (Nat × α)) (k k' : Nat) (v : α)
    (h : k' ≠ k) : alookup (aset m k v) k' = alookup m k' := by
have hkk : ¬(k = k') := fun hh => h hh.symm
induction m with
| nil => simp [aset, alookup, hkk]
| cons p rest ih =>
    cases p with
    | mk a b =>
      rw [aset]
      by_cases hk : a = k
      · rw [if_pos hk, alookup, alookup, hk, if_neg hkk, if_neg hkk]
      · rw [if_neg hk, alookup, alookup]
        by_cases hk' : a = k'
        · rw [if_pos hk', if_pos hk']
        · rw [if_neg hk', if_neg hk']
          exact ih

theorem keysOf_aset_of_mem {α : Type} {m : List (Nat × α)} {k : Nat}
    (v : α) (h : k ∈ keysOf m) : keysOf (aset m k v) = keysOf m := by
induction m with
| nil => simp [keysOf_nil] at h
| cons p rest ih =>
    cases p with
    | mk a b =>
      rw [keysOf_cons, List.mem_cons] at h
      rw [aset]
      by_cases hk : a = k
      · rw [if_pos hk, keysOf_cons, keysOf_cons, hk]
      · rw [if_neg hk, keysOf_cons, keysOf_cons]
        rcases h with h' | h'
        · exact absurd h'.symm hk
        · rw [ih h']

theorem keysOf_aset_of_not_mem {α : Type} {m : List (Nat × α)} {k : Nat}
    (v : α) (h : k ∉ keysOf m) : keysOf (aset m k v) = keysOf m ++ [k] := by
induction m with
| nil => simp [keysOf_nil, aset, keysOf_cons]
| cons p rest ih =>
    cases p with
    | mk a b =>
      rw [keysOf_cons, List.mem_cons] at h
      push_neg at h
      rw [aset, if_neg (fun hh : a = k => h.1 hh.symm), keysOf_cons,
        keysOf_cons, ih h.2, List.cons_append]

theorem nodup_keysOf_aset {α : Type} {m : List (Nat × α)} {k : Nat} {v : α}
    (h : (keysOf m).Nodup) : (keysOf (aset m k v)).Nodup := by
by_cases hk : k ∈ keysOf m
· rw [keysOf_aset_of_mem v hk]; exact h
· rw [keysOf_aset_of_not_mem v hk]
  simp [List.nodup_append, h, hk]

theorem mem_keysOf_of_mem {α : Type} {m : List (Nat × α)} {p : Nat × α}
    (h : p ∈ m) : p.1 ∈ keysOf m :=
List.mem_map.2 ⟨p, h, rfl⟩

theorem mem_aset_iff {α : Type} {m : List (Nat × α)} {k : Nat} {v : α}
    {p : Nat × α} (hnd : (keysOf m).Nodup) :
    p ∈ aset m k v ↔ p = (k, v) ∨ (p ∈ m ∧ p.1 ≠ k) := by
induction m with
| nil => simp [aset]
| cons q rest ih =>
    rw [keysOf_cons, List.nodup_cons] at hnd
    rw [aset]
    by_cases hk : q.1 = k
    · rw [if_pos hk, List.mem_cons]
      constructor
      · rintro (h | h)
        · exact Or.inl h
        · refine Or.inr ⟨List.mem_cons_of_mem _ h, fun hp => hnd.1 ?_⟩
          rw [hk, ← hp]
          exact mem_keysOf_of_mem h
      · rintro (h | ⟨h, hne⟩)
        · exact Or.inl h
        · rcases List.mem_cons.1 h with h' | h'
          · rw [h'] at hne; exact absurd hk hne
          · exact Or.inr h'
    · rw [if_neg hk, List.mem_cons, List.mem_cons, ih hnd.2]
      constructor
      · rintro (h | h | h)
        · refine Or.inr ⟨Or.inl h, ?_⟩
          rw [h]
          exact fun hh => hk hh
        · exact Or.inl h
        · exact Or.inr ⟨Or.inr h.1, h.2⟩
      · rintro (h | ⟨h | h, hne⟩)
        · exact Or.inr (Or.inl h)
        · exact Or.inl h
        · exact Or.inr (Or.inr ⟨h, hne⟩)

theorem mem_adel_iff {α : Type} {m : List (Nat × α)} {k : Nat}
    {p : Nat × α} : p ∈ adel m k ↔ p ∈ m ∧ p.1 ≠ k := by
rw [adel, List.mem_filter]
simp

theorem alookup_adel_self {α : Type} (m : List (Nat × α)) (k : Nat) :
    alookup (adel m k) k = none := by
rw [alookup_eq_none_iff]
intro h
rcases List.mem_map.1 h with ⟨p, hp, hpk⟩
rcases mem_adel_iff.1 hp with ⟨_, hne⟩
exact hne hpk

theorem alookup_adel_ne {α : Type} (m : List (Nat × α)) (k k' : Nat)
    (h : k' ≠ k) : alookup (adel m k) k' = alookup m k' := by
induction m with
| nil => rw [adel]; rfl
| cons p rest ih =>
    cases p with
    | mk a b =>
      rw [adel, List.filter_cons]
      by_cases hk : a = k
      · have hcond : (!((a, b).1 == k)) = false := by simp [hk]
        rw [hcond, if_neg (by simp)]
        rw [alookup, if_neg (fun hh : a = k' => h (hk ▸ hh.symm ▸ rfl))]
        rw [adel] at ih
        exact ih
      · have hcond : (!((a, b).1 == k)) = true := by simp [hk]
        rw [hcond, if_pos rfl, alookup, alookup]
        by_cases hk' : a = k'
        · rw [if_pos hk', if_pos hk']
        · rw [if_neg hk', if_neg hk']
          rw [adel] at ih
          exact ih

theorem mem_keysOf_adel_iff {α : Type} {m : List (Nat × α)} {k k' : Nat} :
    k' ∈ keysOf (adel m k) ↔ k' ∈ keysOf m ∧ k' ≠ k := by
constructor
· intro h
  rcases List.mem_map.1 h with ⟨p, hp, hpk⟩
  rcases mem_adel_iff.1 hp with ⟨hm, hne⟩
  subst hpk
  exact ⟨mem_keysOf_of_mem hm, hne⟩
· rintro ⟨h, hne⟩
  rcases List.mem_map.1 h with ⟨p, hp, hpk⟩
  subst hpk
  exact mem_keysOf_of_mem (p := p) (mem_adel_iff.2 ⟨hp, hne⟩)

theorem nodup_keysOf_adel {α : Type} {m : List (Nat × α)} {k : Nat}
    (h : (keysOf m).Nodup) : (keysOf (adel m k)).Nodup := by
have hsub : List.Sublist (keysOf (adel m k)) (keysOf m) := by
  rw [adel, keysOf, keysOf]
  exact (List.filter_sublist m).map _
exact h.sublist hsub

theorem aset_ne_nil {α : Type} (m : List (Nat × α)) (k : Nat) (v : α) :
    aset m k v ≠ [] := by
cases m with
| nil => simp [aset]
| cons p rest =>
    cases p with
    | mk a b =>
      rw [aset]
      by_cases hk : a = k
      · rw [if_pos hk]; simp
      · rw [if_neg hk]; simp


/-! ### Structural decomposition of `scheduleBears` and `finishTask` -/

/-- The bears of `L` that `schedule_bears` finds ready (absent from
`dependency_dict`), in order. -/
def readyOf (dd : List (Bear × List Bear)) (L : List Bear) : List Bear :=
L.filter (fun b => (alookup dd b).isNone)

/-- The bears of `L` that `schedule_bears` finds still blocked. -/
def heldOf (dd : List (Bear × List Bear)) (L : List Bear) : List Bear :=
L.filter (fun b => (alookup dd b).isSome)

/-- Insert a fresh full handle set for each bear of `bs` into the
`running_tasks` dict. -/
def rtInsertAll (spec : BearSpec) (m : List (Bear × List TaskId))
    (bs : List Bear) : List (Bear × List TaskId) :=
bs.foldl (fun m b => aset m b (List.range (spec.tasks b).length)) m

/-- The final statements of `finish_task` (Core.py lines 109-110): call
`event_loop.stop()` iff the `running_tasks` dict is empty. -/
def stopCheck (st : SchedState) : SchedState :=
if st.runningTasks.isEmpty then
  { st with stopSignals := st.stopSignals + 1 }
else st

theorem scheduleBears_cons (spec : BearSpec) (b : Bear) (rest : List Bear)
    (st : SchedState) :
    scheduleBears spec (b :: rest) st =
    scheduleBears spec rest (scheduleOne spec st b) := rfl

theorem readyOf_cons_blocked {dd : List (Bear × List Bear)} {b : Bear}
    {v : List Bear} (L : List Bear) (h : alookup dd b = some v) :
    readyOf dd (b :: L) = readyOf dd L := by
rw [readyOf, List.filter_cons, readyOf]
simp [h]

theorem readyOf_cons_ready {dd : List (Bear × List Bear)} {b : Bear}
    (L : List Bear) (h : alookup dd b = none) :
    readyOf dd (b :: L) = b :: readyOf dd L := by
rw [readyOf, List.filter_cons, readyOf]
simp [h]

theorem heldOf_cons_blocked {dd : List (Bear × List Bear)} {b : Bear}
    {v : List Bear} (L : List Bear) (h : alookup dd b = some v) :
    heldOf dd (b :: L) = b :: heldOf dd L := by
rw [heldOf, List.filter_cons, heldOf]
simp [h]

theorem heldOf_cons_ready {dd : List (Bear × List Bear)} {b : Bear}
    (L : List Bear) (h : alookup dd b = none) :
    heldOf dd (b :: L) = heldOf dd L := by
rw [heldOf, List.filter_cons, heldOf]
simp [h]

theorem rtInsertAll_cons (spec : BearSpec) (m : List (Bear × List TaskId))
    (b : Bear) (bs : List Bear) :
    rtInsertAll spec m (b :: bs) =
    rtInsertAll spec (aset m b (List.range (spec.tasks b).length)) bs := rfl

/-- `schedule_bears` in closed form: it submits exactly the ready bears of
its argument list (appending them to the log and giving each a fresh full
handle set) and logs the blocked ones, touching nothing else. -/
theorem scheduleBears_eq (spec : BearSpec) (L : List Bear) (st : SchedState) :
    scheduleBears spec L st =
    { st with
      runningTasks := rtInsertAll spec st.runningTasks (readyOf st.depDict L),
      submitted := st.submitted ++ readyOf st.depDict L,
      heldBack := st.heldBack ++ heldOf st.depDict L } := by
induction L generalizing st with
| nil => simp [scheduleBears, readyOf, heldOf, rtInsertAll]
| cons b rest ih =>
    rw [scheduleBears_cons]
    cases h : alookup st.depDict b with
    | some v =>
        have h1 : scheduleOne spec st b =
            { st with heldBack := st.heldBack ++ [b] } := by
          rw [scheduleOne, h]
        rw [h1, ih, readyOf_cons_blocked rest h, heldOf_cons_blocked rest h]
        simp
    | none =>
        have h1 : scheduleOne spec st b =
            { st with
              runningTasks :=
                aset st.runningTasks b (List.range (spec.tasks b).length),
              submitted := st.submitted ++ [b] } := by
          rw [scheduleOne, h]
        rw [h1, ih, readyOf_cons_ready rest h, heldOf_cons_ready rest h,
          rtInsertAll_cons]
        simp

theorem scheduleBears_depDict (spec : BearSpec) (L : List Bear)
    (st : SchedState) : (scheduleBears spec L st).depDict = st.depDict := by
rw [scheduleBears_eq]

theorem scheduleBears_resolved (spec : BearSpec) (L : List Bear)
    (st : SchedState) : (scheduleBears spec L st).resolved = st.resolved := by
rw [scheduleBears_eq]

theorem scheduleBears_sink (spec : BearSpec) (L : List Bear)
    (st : SchedState) : (scheduleBears spec L st).sink = st.sink := by
rw [scheduleBears_eq]

theorem scheduleBears_stopSignals (spec : BearSpec) (L : List Bear)
    (st : SchedState) :
    (scheduleBears spec L st).stopSignals = st.stopSignals := by
rw [scheduleBears_eq]

theorem scheduleBears_submitted (spec : BearSpec) (L : List Bear)
    (st : SchedState) :
    (scheduleBears spec L st).submitted =
    st.submitted ++ readyOf st.depDict L := by
rw [scheduleBears_eq]

theorem scheduleBears_runningTasks (spec : BearSpec) (L : List Bear)
    (st : SchedState) :
    (scheduleBears spec L st).runningTasks =
    rtInsertAll spec st.runningTasks (readyOf st.depDict L) := by
rw [scheduleBears_eq]


theorem finishTask_fault (spec : BearSpec) (bear : Bear) (task : TaskId)
    (st : SchedState)
    (h : (spec.tasks bear).get? task = some TaskOutcome.fault) :
    finishTask spec bear task st = (st, true) := by
unfold finishTask
rw [h]

theorem finishTask_oob (spec : BearSpec) (bear : Bear) (task : TaskId)
    (st : SchedState) (h : (spec.tasks bear).get? task = none) :
    finishTask spec bear task st = (st, true) := by
unfold finishTask
rw [h]

/-- `finish_task` on a task whose bear keeps other tasks in flight: the
result list is appended to the sink, the handle leaves the bear's entry,
and nothing else happens. -/
theorem finishTask_ok_more (spec : BearSpec) (bear : Bear) (task : TaskId)
    (st : SchedState) (ts : List TaskId) (rs : List Nat)
    (hok : (spec.tasks bear).get? task = some (TaskOutcome.ok rs))
    (hlk : alookup st.runningTasks bear = some ts)
    (hne : ts.filter (fun t => !(t == task)) ≠ []) :
    finishTask spec bear task st =
    ({ st with
       sink := st.sink ++ rs,
       runningTasks :=
         aset st.runningTasks bear (ts.filter (fun t => !(t == task))) },
     false) := by
unfold finishTask
rw [hok]
dsimp only
rw [hlk]
dsimp only [Option.getD_some]
rw [if_neg (show ¬((ts.filter (fun t => !(t == task))).isEmpty = true) by
  rw [List.isEmpty_iff]; exact hne)]
rw [if_neg (show
    ¬((aset st.runningTasks bear
        (ts.filter (fun t => !(t == task)))).isEmpty = true) by
  rw [List.isEmpty_iff]; exact aset_ne_nil _ _ _)]

/-- `finish_task` on the last in-flight task of a bear: the result list is
appended to the sink, the bear is resolved, newly ready bears are
scheduled, the bear's entry is deleted, and `event_loop.stop()` is called
iff the dict became empty. -/
theorem finishTask_ok_done (spec : BearSpec) (bear : Bear) (task : TaskId)
    (st : SchedState) (ts : List TaskId) (rs : List Nat)
    (hok : (spec.tasks bear).get? task = some (TaskOutcome.ok rs))
    (hlk : alookup st.runningTasks bear = some ts)
    (hemp : ts.filter (fun t => !(t == task)) = []) :
    finishTask spec bear task st =
    (stopCheck
      { st with
        sink := st.sink ++ rs,
        runningTasks :=
          adel
            (rtInsertAll spec (aset st.runningTasks bear [])
              (readyOf (trackerResolve st.depDict bear).1
                (trackerResolve st.depDict bear).2))
            bear,
        depDict := (trackerResolve st.depDict bear).1,
        resolved := st.resolved ++ [bear],
        submitted :=
          st.submitted ++
            readyOf (trackerResolve st.depDict bear).1
              (trackerResolve st.depDict bear).2,
        heldBack :=
          st.heldBack ++
            heldOf (trackerResolve st.depDict bear).1
              (trackerResolve st.depDict bear).2 },
     false) := by
unfold finishTask
rw [hok]
dsimp only
rw [hlk]
dsimp only [Option.getD_some]
rw [hemp]
rw [if_pos (show ([] : List TaskId).isEmpty = true from rfl)]
rw [stopCheck]
by_cases hrr : (trackerResolve st.depDict bear).2 = []
· rw [if_pos (show (trackerResolve st.depDict bear).2.isEmpty = true by
    rw [List.isEmpty_iff]; exact hrr)]
  dsimp only
  rw [hrr, readyOf, heldOf, rtInsertAll]
  dsimp only [List.filter_nil, List.foldl_nil]
  rw [List.append_nil, List.append_nil]
  split
  · rfl
  · rfl
· rw [if_neg (show ¬((trackerResolve st.depDict bear).2.isEmpty = true) by
    rw [List.isEmpty_iff]; exact hrr)]
  rw [scheduleBears_eq]
  dsimp only
  split
  · rfl
  · rfl


/-! ### Completion events and the stop signal -/

/-- From a state whose `running_tasks` entries are all empty, no completion
event can ever be delivered. -/
theorem validEvents_nil_of_all_empty (spec : BearSpec) (st : SchedState)
    (h : ∀ p ∈ st.runningTasks, p.2 = []) :
    ∀ evs, validEvents spec st evs = true → evs = [] := by
intro evs hv
cases evs with
| nil => rfl
| cons e rest =>
    exfalso
    rw [validEvents, Bool.and_eq_true] at hv
    rcases hv with ⟨h1, _⟩
    cases hlk : alookup st.runningTasks e.1 with
    | none => rw [hlk] at h1; simp at h1
    | some ts =>
        have hts : ts = [] := h _ (alookup_mem hlk)
        rw [hlk, hts] at h1
        simp at h1

theorem initState_stopSignals (spec : BearSpec) (bears : List Bear) :
    (initState spec bears).stopSignals = 0 := by
rw [initState, scheduleBears_stopSignals]

/-- `finish_task` on a normally completed task of a bear with no entry in
`running_tasks`: `running_tasks[bear]` is the empty dict default here, so
the handler walks the resolve path exactly as for a drained entry. -/
theorem finishTask_ok_absent (spec : BearSpec) (bear : Bear) (task : TaskId)
    (st : SchedState) (rs : List Nat)
    (hok : (spec.tasks bear).get? task = some (TaskOutcome.ok rs))
    (hlkn : alookup st.runningTasks bear = none) :
    finishTask spec bear task st =
    (stopCheck
      { st with
        sink := st.sink ++ rs,
        runningTasks :=
          adel
            (rtInsertAll spec (aset st.runningTasks bear [])
              (readyOf (trackerResolve st.depDict bear).1
                (trackerResolve st.depDict bear).2))
            bear,
        depDict := (trackerResolve st.depDict bear).1,
        resolved := st.resolved ++ [bear],
        submitted :=
          st.submitted ++
            readyOf (trackerResolve st.depDict bear).1
              (trackerResolve st.depDict bear).2,
        heldBack :=
          st.heldBack ++
            heldOf (trackerResolve st.depDict bear).1
              (trackerResolve st.depDict bear).2 },
     false) := by
unfold finishTask
rw [hok]
dsimp only
rw [hlkn]
dsimp only [Option.getD_none, List.filter_nil]
rw [if_pos (show ([] : List TaskId).isEmpty = true from rfl)]
rw [stopCheck]
by_cases hrr : (trackerResolve st.depDict bear).2 = []
· rw [if_pos (show (trackerResolve st.depDict bear).2.isEmpty = true by
    rw [List.isEmpty_iff]; exact hrr)]
  dsimp only
  rw [hrr, readyOf, heldOf, rtInsertAll]
  dsimp only [List.filter_nil, List.foldl_nil]
  rw [List.append_nil, List.append_nil]
  split
  · rfl
  · rfl
· rw [if_neg (show ¬((trackerResolve st.depDict bear).2.isEmpty = true) by
    rw [List.isEmpty_iff]; exact hrr)]
  rw [scheduleBears_eq]
  dsimp only
  split
  · rfl
  · rfl

/-- Generic behaviour of the tail of `finish_task`: either the stop count
is untouched (and the dict can only be empty afterwards if it already
was), or it is incremented by one and the dict is empty afterwards. -/
theorem finishTask_stop_cases (spec : BearSpec) (bear : Bear) (task : TaskId)
    (st : SchedState) :
    ((finishTask spec bear task st).1.stopSignals = st.stopSignals ∧
      ((finishTask spec bear task st).1.runningTasks = [] →
        st.runningTasks = [])) ∨
    ((finishTask spec bear task st).1.stopSignals = st.stopSignals + 1 ∧
      (finishTask spec bear task st).1.runningTasks = []) := by
have hstop : ∀ y : SchedState, y.stopSignals = st.stopSignals →
    ((stopCheck y, false).1.stopSignals = st.stopSignals ∧
      ((stopCheck y, false).1.runningTasks = [] → st.runningTasks = [])) ∨
    ((stopCheck y, false).1.stopSignals = st.stopSignals + 1 ∧
      (stopCheck y, false).1.runningTasks = []) := by
  intro y hy
  rw [stopCheck]
  by_cases hc : y.runningTasks.isEmpty = true
  · rw [List.isEmpty_iff] at hc
    rw [if_pos (by rw [List.isEmpty_iff]; exact hc)]
    exact Or.inr ⟨by rw [hy], hc⟩
  · rw [List.isEmpty_iff] at hc
    rw [if_neg (by rw [List.isEmpty_iff]; exact hc)]
    exact Or.inl ⟨hy, fun h => absurd h hc⟩
cases hget : (spec.tasks bear).get? task with
| none =>
    rw [finishTask_oob spec bear task st hget]
    exact Or.inl ⟨rfl, fun h => h⟩
| some o =>
    cases o with
    | fault =>
        rw [finishTask_fault spec bear task st hget]
        exact Or.inl ⟨rfl, fun h => h⟩
    | ok rs =>
        cases hlk : alookup st.runningTasks bear with
        | none =>
            rw [finishTask_ok_absent spec bear task st rs hget hlk]
            refine hstop _ ?_
            rfl
        | some ts =>
            by_cases hf : ts.filter (fun t => !(t == task)) = []
            · rw [finishTask_ok_done spec bear task st ts rs hget hlk hf]
              refine hstop _ ?_
              rfl
            · rw [finishTask_ok_more spec bear task st ts rs hget hlk hf]
              exact Or.inl ⟨rfl, fun h => absurd h (aset_ne_nil _ _ _)⟩

/-- The tail of `finish_task` on a normally completed in-flight task: the
stop signal is sent during this callback iff the `running_tasks` dict is
empty when the callback finishes, and is left untouched otherwise. -/
theorem finishTask_ok_stop_iff (spec : BearSpec) (bear : Bear)
    (task : TaskId) (st : SchedState) (ts : List TaskId) (rs : List Nat)
    (hok : (spec.tasks bear).get? task = some (TaskOutcome.ok rs))
    (hlk : alookup st.runningTasks bear = some ts) :
    ((finishTask spec bear task st).1.stopSignals = st.stopSignals + 1 ↔
      (finishTask spec bear task st).1.runningTasks = []) ∧
    ((finishTask spec bear task st).1.runningTasks ≠ [] →
      (finishTask spec bear task st).1.stopSignals = st.stopSignals) := by
have hstop : ∀ y : SchedState, y.stopSignals = st.stopSignals →
    (((stopCheck y, false) : SchedState × Bool).1.stopSignals =
        st.stopSignals + 1 ↔
      (stopCheck y, false).1.runningTasks = []) ∧
    ((stopCheck y, false).1.runningTasks ≠ [] →
      (stopCheck y, false).1.stopSignals = st.stopSignals) := by
  intro y hy
  rw [stopCheck]
  by_cases hc : y.runningTasks = []
  · rw [if_pos (by rw [List.isEmpty_iff]; exact hc)]
    refine ⟨⟨fun _ => hc, fun _ => by rw [hy]⟩, fun h => absurd hc h⟩
  · rw [if_neg (by rw [List.isEmpty_iff]; exact hc)]
    refine ⟨⟨fun h => ?_, fun h => absurd h hc⟩, fun _ => hy⟩
    exfalso
    rw [hy] at h
    exact absurd h (Nat.ne_of_lt (Nat.lt_succ_self _))
by_cases hf : ts.filter (fun t => !(t == task)) = []
· rw [finishTask_ok_done spec bear task st ts rs hok hlk hf]
  refine hstop _ ?_
  rfl
· rw [finishTask_ok_more spec bear task st ts rs hok hlk hf]
  dsimp only
  refine ⟨⟨fun h => ?_, fun h => absurd h (aset_ne_nil _ _ _)⟩, fun _ => rfl⟩
  exfalso
  exact absurd h (Nat.ne_of_lt (Nat.lt_succ_self _))

/-- The stop-count invariant along any deliverable event sequence: the
stop signal has been sent at most once, and only with an empty
`running_tasks` dict. -/
theorem runEvents_stop_invariant (spec : BearSpec) :
    ∀ (evs : List (Bear × TaskId)) (st : SchedState),
    validEvents spec st evs = true →
    (st.stopSignals = 0 ∨ (st.stopSignals = 1 ∧ st.runningTasks = [])) →
    ((runEvents spec st evs).stopSignals = 0 ∨
      ((runEvents spec st evs).stopSignals = 1 ∧
        (runEvents spec st evs).runningTasks = [])) := by
intro evs
induction evs with
| nil => intro st _ h; exact h
| cons e rest ih =>
    intro st hv h
    rw [validEvents, Bool.and_eq_true] at hv
    rcases hv with ⟨h1, h2⟩
    rw [runEvents]
    apply ih _ h2
    rcases h with h0 | ⟨_, hmap⟩
    · rcases finishTask_stop_cases spec e.1 e.2 st with ⟨hs, _⟩ | ⟨hs, hm⟩
      · exact Or.inl (by rw [hs, h0])
      · exact Or.inr ⟨by rw [hs, h0], hm⟩
    · exfalso
      rw [hmap] at h1
      simp [alookup] at h1

/-- If the dict was nonempty and no stop had been sent, and the run drains
the dict, then the stop signal was sent exactly once. -/
theorem runEvents_becomes_empty (spec : BearSpec) :
    ∀ (evs : List (Bear × TaskId)) (st : SchedState),
    validEvents spec st evs = true →
    st.stopSignals = 0 → st.runningTasks ≠ [] →
    (runEvents spec st evs).runningTasks = [] →
    (runEvents spec st evs).stopSignals = 1 := by
intro evs
induction evs with
| nil => intro st _ _ hne hfin; exact absurd hfin hne
| cons e rest ih =>
    intro st hv h0 hne hfin
    rw [validEvents, Bool.and_eq_true] at hv
    rcases hv with ⟨_, h2⟩
    rw [runEvents] at hfin ⊢
    rcases finishTask_stop_cases spec e.1 e.2 st with ⟨hs, himpl⟩ | ⟨hs, hm⟩
    · have hne' : (finishTask spec e.1 e.2 st).1.runningTasks ≠ [] :=
        fun h => absurd (himpl h) hne
      exact ih _ h2 (by rw [hs, h0]) hne' hfin
    · have hrest : rest = [] := by
        apply validEvents_nil_of_all_empty spec _ _ _ h2
        rw [hm]
        intro p hp
        simp at hp
      subst hrest
      rw [runEvents]
      rw [hs, h0]


theorem runSession_eq (spec : BearSpec) (bears : List Bear)
    (evs : List (Bear × TaskId)) :
    runSession spec bears evs = runEvents spec (initState spec bears) evs :=
rfl

/-! ### Claim theorems -/

/-- C1: the claim says a bear whose `generateTasks()` sequence is empty is
treated as immediately finished, so its dependents become ready.  The code
does the opposite: bear 0 of `specZ` generates no tasks, `schedule_bears`
registers an empty future set for it, no completion callback can ever
fire, and for every deliverable completion sequence the session stays
frozen: bear 0 is never resolved, its dependent bear 1 is never submitted,
and `event_loop.stop()` is never called — a permanent deadlock. -/
theorem zero_task_bear_deadlocks (evs : List (Bear × TaskId))
    (hv : validEvents specZ (initState specZ [0, 1]) evs = true) :
    runSession specZ [0, 1] evs = initState specZ [0, 1] ∧
    (runSession specZ [0, 1] evs).runningTasks = [(0, [])] ∧
    (runSession specZ [0, 1] evs).submitted = [0] ∧
    1 ∉ (runSession specZ [0, 1] evs).submitted ∧
    (runSession specZ [0, 1] evs).resolved = [] ∧
    (runSession specZ [0, 1] evs).stopSignals = 0 := by
have hemp : ∀ p ∈ (initState specZ [0, 1]).runningTasks, p.2 = [] := by decide
have hevs : evs = [] :=
  validEvents_nil_of_all_empty specZ (initState specZ [0, 1]) hemp evs hv
subst hevs
refine ⟨rfl, ?_, ?_, ?_, ?_, ?_⟩ <;> decide

theorem zero_task_bear_deadlocks_witness :
    validEvents specZ (initState specZ [0, 1]) [] = true ∧
    (runSession specZ [0, 1] []).stopSignals = 0 ∧
    1 ∉ (runSession specZ [0, 1] []).submitted :=
⟨by decide, (zero_task_bear_deadlocks [] (by decide)).2.2.2.2.2,
 (zero_task_bear_deadlocks [] (by decide)).2.2.2.1⟩

/-- C2: the claim says a fault raised while retrieving a task's result is
caught at the completion boundary, wrapped as a TaskFailure and routed to
an error channel.  The code has no exception handling in `finish_task`
(`# TODO Handle exceptions!!!`): the exception escapes the callback before
any state is touched — the handle is not removed, the bear is never
resolved, nothing is wrapped or routed anywhere. -/
theorem task_fault_escapes_uncaught (spec : BearSpec) (bear : Bear)
    (task : TaskId) (st : SchedState)
    (h : (spec.tasks bear).get? task = some TaskOutcome.fault) :
    finishTask spec bear task st = (st, true) :=
finishTask_fault spec bear task st h

theorem task_fault_escapes_uncaught_witness :
    (specF.tasks 0).get? 0 = some TaskOutcome.fault ∧
    finishTask specF 0 0 (initState specF [0, 2]) =
      (initState specF [0, 2], true) :=
⟨by decide, task_fault_escapes_uncaught specF 0 0 (initState specF [0, 2])
  (by decide)⟩

/-- C3: during the handling of a normally completed in-flight task, the
scheduler calls `event_loop.stop()` iff the `running_tasks` dict is empty
when the handler finishes (first conjunct); over a whole session driven by
any deliverable completion sequence the stop signal is sent at most once,
only with an empty dict, and exactly once whenever the initially nonempty
dict has drained (second conjunct). -/
theorem stop_signal_iff_dict_empty_once :
    (∀ (spec : BearSpec) (bear : Bear) (task : TaskId) (st : SchedState)
        (ts : List TaskId) (rs : List Nat),
      (spec.tasks bear).get? task = some (TaskOutcome.ok rs) →
      alookup st.runningTasks bear = some ts →
      (((finishTask spec bear task st).1.stopSignals = st.stopSignals + 1) ↔
        (finishTask spec bear task st).1.runningTasks = []) ∧
      ((finishTask spec bear task st).1.runningTasks ≠ [] →
        (finishTask spec bear task st).1.stopSignals = st.stopSignals)) ∧
    (∀ (spec : BearSpec) (bears : List Bear) (evs : List (Bear × TaskId)),
      validEvents spec (initState spec bears) evs = true →
      (runSession spec bears evs).stopSignals ≤ 1 ∧
      ((runSession spec bears evs).stopSignals = 1 →
        (runSession spec bears evs).runningTasks = []) ∧
      ((runSession spec bears evs).runningTasks = [] →
        (initState spec bears).runningTasks ≠ [] →
        (runSession spec bears evs).stopSignals = 1)) := by
constructor
· intro spec bear task st ts rs hok hlk
  exact finishTask_ok_stop_iff spec bear task st ts rs hok hlk
· intro spec bears evs hv
  have hinv := runEvents_stop_invariant spec evs (initState spec bears) hv
    (Or.inl (initState_stopSignals spec bears))
  rw [runSession_eq]
  refine ⟨?_, ?_, ?_⟩
  · rcases hinv with h | ⟨h, _⟩ <;> omega
  · intro h1
    rcases hinv with h | ⟨_, hm⟩
    · omega
    · exact hm
  · intro hmap hne
    exact runEvents_becomes_empty spec evs (initState spec bears) hv
      (initState_stopSignals spec bears) hne hmap

theorem stop_signal_iff_dict_empty_once_witness :
    ((finishTask specT 7 1 (initState specT [7])).1.runningTasks ≠ [] →
      (finishTask specT 7 1 (initState specT [7])).1.stopSignals =
        (initState specT [7]).stopSignals) ∧
    (runSession specD [0, 1, 2, 3] [(0, 0), (1, 0), (2, 0), (3, 0)]).stopSignals ≤ 1 :=
⟨(stop_signal_iff_dict_empty_once.1 specT 7 1 (initState specT [7]) [0, 1] [2]
    (by decide) (by decide)).2,
 (stop_signal_iff_dict_empty_once.2 specD [0, 1, 2, 3]
    [(0, 0), (1, 0), (2, 0), (3, 0)] (by decide)).1⟩

/-- C4: with no initially ready bear, `run` starts no work — and, against
the claim, it then hangs instead of terminating: nothing ever calls
`event_loop.stop()`, which is the only way `run_forever` returns.  First
conjunct: the empty bear collection, for any spec.  Second conjunct: the
all-blocked (cyclic) graph `specC`, where both bears are held back.  In
both, no completion event can ever be delivered and the stop count stays
zero forever. -/
theorem no_ready_bears_loop_never_stops :
    (∀ (spec : BearSpec) (evs : List (Bear × TaskId)),
      validEvents spec (initState spec []) evs = true →
      (runSession spec [] evs).runningTasks = [] ∧
      (runSession spec [] evs).submitted = [] ∧
      (runSession spec [] evs).stopSignals = 0) ∧
    (∀ evs : List (Bear × TaskId),
      validEvents specC (initState specC [0, 1]) evs = true →
      (runSession specC [0, 1] evs).runningTasks = [] ∧
      (runSession specC [0, 1] evs).submitted = [] ∧
      (runSession specC [0, 1] evs).heldBack = [0, 1] ∧
      (runSession specC [0, 1] evs).stopSignals = 0) := by
constructor
· intro spec evs hv
  have hinit : initState spec [] =
      { runningTasks := [], depDict := [], submitted := [], heldBack := [],
        resolved := [], sink := [], stopSignals := 0 } := rfl
  have hevs : evs = [] := by
    apply validEvents_nil_of_all_empty spec (initState spec []) _ evs hv
    rw [hinit]
    intro p hp
    exact absurd hp (List.not_mem_nil p)
  subst hevs
  refine ⟨?_, ?_, ?_⟩
  · show (initState spec []).runningTasks = []
    rw [hinit]
  · show (initState spec []).submitted = []
    rw [hinit]
  · show (initState spec []).stopSignals = 0
    rw [hinit]
· intro evs hv
  have hemp : ∀ p ∈ (initState specC [0, 1]).runningTasks, p.2 = [] := by
    decide
  have hevs : evs = [] :=
    validEvents_nil_of_all_empty specC (initState specC [0, 1]) hemp evs hv
  subst hevs
  refine ⟨?_, ?_, ?_, ?_⟩ <;> decide

theorem no_ready_bears_loop_never_stops_witness :
    ((runSession specC [] []).stopSignals = 0) ∧
    ((runSession specC [0, 1] []).stopSignals = 0 ∧
      (runSession specC [0, 1] []).heldBack = [0, 1]) :=
⟨(no_ready_bears_loop_never_stops.1 specC [] (by decide)).2.2,
 ⟨(no_ready_bears_loop_never_stops.2 [] (by decide)).2.2.2,
  (no_ready_bears_loop_never_stops.2 [] (by decide)).2.2.1⟩⟩

/-- C5: the claim says `run` releases the WorkerPool (the process pool
executor) on every exit path.  The `finally` block of `run` contains only
`event_loop.close()`: the event loop is closed, but no shutdown of the
executor appears anywhere in the source, so the pool is not released when
`run` returns. -/
theorem run_teardown_releases_loop_not_executor :
    (runTeardown freshResources).loopClosed = true ∧
    (runTeardown freshResources).executorReleased = false :=
⟨rfl, rfl⟩

/-- C8: the completion handler of a normally completed task appends the
task's result sequence to the sink in exactly the order produced — the
sink after the callback is the old sink followed by `r1, ..., rn`, with no
reordering and no batching, whatever else the callback goes on to do. -/
theorem results_forwarded_in_order (spec : BearSpec) (bear : Bear)
    (task : TaskId) (st : SchedState) (rs : List Nat)
    (hok : (spec.tasks bear).get? task = some (TaskOutcome.ok rs)) :
    ((finishTask spec bear task st).1).sink = st.sink ++ rs := by
cases hlk : alookup st.runningTasks bear with
| none =>
    rw [finishTask_ok_absent spec bear task st rs hok hlk, stopCheck]
    split
    · rfl
    · rfl
| some ts =>
    by_cases hf : ts.filter (fun t => !(t == task)) = []
    · rw [finishTask_ok_done spec bear task st ts rs hok hlk hf, stopCheck]
      split
      · rfl
      · rfl
    · rw [finishTask_ok_more spec bear task st ts rs hok hlk hf]

theorem results_forwarded_in_order_witness :
    ((finishTask specT 7 0 (initState specT [7])).1).sink =
      (initState specT [7]).sink ++ [1] :=
results_forwarded_in_order specT 7 0 (initState specT [7]) [1] (by decide)

/-- C10: completing a task of a bear that still has other tasks in flight
removes exactly that handle from the bear's `running_tasks` entry and
forwards the results; the dependency dict, the resolve log, the
submission log, the held-back log and the stop count are all untouched,
and no exception escapes. -/
theorem completion_frame_other_tasks_inflight (spec : BearSpec) (bear : Bear)
    (task : TaskId) (st : SchedState) (ts : List TaskId) (rs : List Nat)
    (hok : (spec.tasks bear).get? task = some (TaskOutcome.ok rs))
    (hlk : alookup st.runningTasks bear = some ts)
    (hne : ts.filter (fun t => !(t == task)) ≠ []) :
    (finishTask spec bear task st).1.runningTasks =
      aset st.runningTasks bear (ts.filter (fun t => !(t == task))) ∧
    (finishTask spec bear task st).1.depDict = st.depDict ∧
    (finishTask spec bear task st).1.resolved = st.resolved ∧
    (finishTask spec bear task st).1.submitted = st.submitted ∧
    (finishTask spec bear task st).1.heldBack = st.heldBack ∧
    (finishTask spec bear task st).1.stopSignals = st.stopSignals ∧
    (finishTask spec bear task st).1.sink = st.sink ++ rs ∧
    (finishTask spec bear task st).2 = false := by
rw [finishTask_ok_more spec bear task st ts rs hok hlk hne]
exact ⟨rfl, rfl, rfl, rfl, rfl, rfl, rfl, rfl⟩

theorem completion_frame_other_tasks_inflight_witness :
    (finishTask specT 7 1 (initState specT [7])).1.depDict =
      (initState specT [7]).depDict ∧
    (finishTask specT 7 1 (initState specT [7])).1.resolved =
      (initState specT [7]).resolved ∧
    (finishTask specT 7 1 (initState specT [7])).1.stopSignals =
      (initState specT [7]).stopSignals :=
⟨(completion_frame_other_tasks_inflight specT 7 1 (initState specT [7])
    [0, 1] [2] (by decide) (by decide) (by decide)).2.1,
 (completion_frame_other_tasks_inflight specT 7 1 (initState specT [7])
    [0, 1] [2] (by decide) (by decide) (by decide)).2.2.1,
 (completion_frame_other_tasks_inflight specT 7 1 (initState specT [7])
    [0, 1] [2] (by decide) (by decide) (by decide)).2.2.2.2.2.1⟩


/-! ### `load_files` -/

/-- Whether reading this outcome raises (`UnicodeDecodeError` or
`OSError`). -/
def readFails : ReadOutcome → Bool
| ReadOutcome.content _ => false
| ReadOutcome.decodeError => true
| ReadOutcome.osError => true

theorem slookup_sset_self {α : Type} (m : List (String × α)) (k : String)
    (v : α) : slookup (sset m k v) k = some v := by
induction m with
| nil => simp [sset, slookup]
| cons p rest ih =>
    cases p with
    | mk a b =>
      rw [sset]
      by_cases hk : a = k
      · rw [if_pos hk, slookup, if_pos rfl]
      · rw [if_neg hk, slookup, if_neg hk]
        exact ih

theorem slookup_sset_ne {α : Type} (m : List (String × α)) (k k' : String)
    (v : α) (h : k' ≠ k) : slookup (sset m k v) k' = slookup m k' := by
have hkk : ¬(k = k') := fun hh => h hh.symm
induction m with
| nil => simp [sset, slookup, hkk]
| cons p rest ih =>
    cases p with
    | mk a b =>
      rw [sset]
      by_cases hk : a = k
      · rw [if_pos hk, slookup, slookup, hk, if_neg hkk, if_neg hkk]
      · rw [if_neg hk, slookup, slookup]
        by_cases hk' : a = k'
        · rw [if_pos hk', if_pos hk']
        · rw [if_neg hk', if_neg hk']
          exact ih

/-- The dictionary built by the `load_files` loop, in closed form: a
filename maps to its content if it appears in the remaining list and its
read succeeds, and otherwise keeps whatever the accumulator said. -/
theorem load_files_foldl_lookup (fs : String → ReadOutcome) (f : String) :
    ∀ (files : List String) (acc : List (String × List String) × List String),
    slookup
      (files.foldl
        (fun acc filename =>
          match fs filename with
          | ReadOutcome.content lines => (sset acc.1 filename lines, acc.2)
          | ReadOutcome.decodeError => (acc.1, acc.2 ++ [filename])
          | ReadOutcome.osError => (acc.1, acc.2 ++ [filename]))
        acc).1 f =
    (if f ∈ files then
      (match fs f with
       | ReadOutcome.content ls => some ls
       | _ => slookup acc.1 f)
     else slookup acc.1 f) := by
intro files
induction files with
| nil => intro acc; simp
| cons g rest ih =>
    intro acc
    rw [List.foldl_cons]
    rw [ih]
    by_cases hf : f ∈ rest
    · rw [if_pos hf, if_pos (List.mem_cons_of_mem g hf)]
      cases hfs : fs f with
      | content ls => rfl
      | decodeError =>
          dsimp only
          by_cases hg : g = f
          · subst hg
            rw [hfs]
          · cases hgs : fs g with
            | content ls2 =>
                dsimp only
                exact slookup_sset_ne acc.1 g f ls2 (fun hh => hg hh.symm)
            | decodeError => rfl
            | osError => rfl
      | osError =>
          dsimp only
          by_cases hg : g = f
          · subst hg
            rw [hfs]
          · cases hgs : fs g with
            | content ls2 =>
                dsimp only
                exact slookup_sset_ne acc.1 g f ls2 (fun hh => hg hh.symm)
            | decodeError => rfl
            | osError => rfl
    · rw [if_neg hf]
      by_cases hg : g = f
      · subst hg
        rw [if_pos (List.mem_cons_self g rest)]
        cases hgs : fs g with
        | content ls =>
            dsimp only
            exact slookup_sset_self acc.1 g ls
        | decodeError => rfl
        | osError => rfl
      · rw [if_neg (by
          intro hmem
          rcases List.mem_cons.1 hmem with h | h
          · exact hg h.symm
          · exact hf h)]
        cases hgs : fs g with
        | content ls =>
            dsimp only
            exact slookup_sset_ne acc.1 g f ls (fun hh => hg hh.symm)
        | decodeError => rfl
        | osError => rfl

/-- The warning log built by the `load_files` loop, in closed form. -/
theorem load_files_foldl_warnings (fs : String → ReadOutcome) :
    ∀ (files : List String) (acc : List (String × List String) × List String),
    (files.foldl
      (fun acc filename =>
        match fs filename with
        | ReadOutcome.content lines => (sset acc.1 filename lines, acc.2)
        | ReadOutcome.decodeError => (acc.1, acc.2 ++ [filename])
        | ReadOutcome.osError => (acc.1, acc.2 ++ [filename]))
      acc).2 =
    acc.2 ++ files.filter (fun g => readFails (fs g)) := by
intro files
induction files with
| nil => intro acc; simp
| cons g rest ih =>
    intro acc
    rw [List.foldl_cons, List.filter_cons]
    cases hgs : fs g with
    | content ls =>
        dsimp only
        rw [ih]
        simp [readFails]
    | decodeError =>
        dsimp only
        rw [ih]
        simp [readFails]
    | osError =>
        dsimp only
        rw [ih]
        simp [readFails]

/-- C9: `load_files` returns a dictionary whose keys are exactly the input
filenames whose read succeeded, each mapped to its line-split content
(first conjunct, an iff characterizing every lookup); every filename whose
read raises a decode failure or an OS error is absent from the dictionary
and present in the warning log, which holds exactly the failing filenames
in input order — and `load_files`, being a total function of the file
system, always returns instead of propagating the failure. -/
theorem load_files_keys_content_warnings (fs : String → ReadOutcome)
    (files : List String) (f : String) :
    (∀ ls, slookup (load_files fs files).1 f = some ls ↔
      (f ∈ files ∧ fs f = ReadOutcome.content ls)) ∧
    ((load_files fs files).2 = files.filter (fun g => readFails (fs g))) ∧
    (f ∈ files → readFails (fs f) = true →
      slookup (load_files fs files).1 f = none ∧
        f ∈ (load_files fs files).2) := by
have hlk := load_files_foldl_lookup fs f files ([], [])
have hw := load_files_foldl_warnings fs files ([], [])
rw [show (load_files fs files) =
    (files.foldl
      (fun acc filename =>
        match fs filename with
        | ReadOutcome.content lines => (sset acc.1 filename lines, acc.2)
        | ReadOutcome.decodeError => (acc.1, acc.2 ++ [filename])
        | ReadOutcome.osError => (acc.1, acc.2 ++ [filename]))
      ([], [])) from rfl]
refine ⟨?_, ?_, ?_⟩
· intro ls
  rw [hlk]
  constructor
  · intro h
    by_cases hf : f ∈ files
    · rw [if_pos hf] at h
      refine ⟨hf, ?_⟩
      cases hfs : fs f with
      | content ls2 =>
          rw [hfs] at h
          dsimp only at h
          injection h with h
          rw [h]
      | decodeError =>
          rw [hfs] at h
          dsimp only at h
          rw [show slookup ([] : List (String × List String)) f = none
            from rfl] at h
          cases h
      | osError =>
          rw [hfs] at h
          dsimp only at h
          rw [show slookup ([] : List (String × List String)) f = none
            from rfl] at h
          cases h
    · rw [if_neg hf] at h
      rw [show slookup ([] : List (String × List String)) f = none
        from rfl] at h
      cases h
  · rintro ⟨hf, hfs⟩
    rw [if_pos hf, hfs]
· rw [hw]
  simp
· intro hf hfail
  constructor
  · rw [hlk, if_pos hf]
    cases hfs : fs f with
    | content ls =>
        rw [hfs] at hfail
        simp [readFails] at hfail
    | decodeError => rfl
    | osError => rfl
  · rw [hw]
    simp only [List.nil_append]
    exact List.mem_filter.2 ⟨hf, hfail⟩

theorem load_files_keys_content_warnings_witness :
    slookup (load_files fsEx ["good", "bad", "gone"]).1 "good" =
      some ["line1\n", "line2\n"] ∧
    "bad" ∈ (load_files fsEx ["good", "bad", "gone"]).2 :=
⟨((load_files_keys_content_warnings fsEx ["good", "bad", "gone"]
    "good").1 ["line1\n", "line2\n"]).2 ⟨by decide, rfl⟩,
 ((load_files_keys_content_warnings fsEx ["good", "bad", "gone"]
    "bad").2.2 (by decide) rfl).2⟩


/-! ### The scheduling invariant -/

/-- The dependencies of `b` that lie in the input set and are not yet
resolved — the value a bear's `dependency_dict` entry must hold. -/
def unresolvedDeps (spec : BearSpec) (bears R : List Bear) (b : Bear) :
    List Bear :=
(spec.deps b).filter (fun d => decide (d ∈ bears) && decide (d ∉ R))

theorem unresolvedDeps_filter (spec : BearSpec) (bears R : List Bear)
    (b c : Bear) :
    (unresolvedDeps spec bears R b).filter (fun d => !(d == c)) =
    unresolvedDeps spec bears (R ++ [c]) b := by
rw [unresolvedDeps, unresolvedDeps, List.filter_filter]
apply List.filter_congr
intro d _
by_cases h1 : d ∈ bears <;> by_cases h2 : d ∈ R <;> by_cases h3 : d = c <;>
  simp [h1, h2, h3]

theorem mem_addBearDependencies (spec : BearSpec) (bears : List Bear)
    (p : Bear × List Bear) :
    p ∈ addBearDependencies spec bears ↔
    (p.1 ∈ bears ∧
      p.2 = (spec.deps p.1).filter (fun d => decide (d ∈ bears)) ∧
      p.2 ≠ []) := by
rw [addBearDependencies, List.mem_filter, List.mem_map]
constructor
· rintro ⟨⟨b, hb, hfb⟩, hne⟩
  subst hfb
  refine ⟨hb, rfl, ?_⟩
  intro h
  rw [h] at hne
  simp at hne
· rintro ⟨h1, h2, h3⟩
  refine ⟨⟨p.1, h1, ?_⟩, ?_⟩
  · rw [← h2]
  · simp [List.isEmpty_iff, h3]

theorem filter_bears_eq_unresolvedDeps_nil (spec : BearSpec)
    (bears : List Bear) (b : Bear) :
    (spec.deps b).filter (fun d => decide (d ∈ bears)) =
    unresolvedDeps spec bears [] b := by
rw [unresolvedDeps]
apply List.filter_congr
intro d _
simp

theorem mem_keysOf_addBearDependencies (spec : BearSpec) (bears : List Bear)
    (b : Bear) :
    b ∈ keysOf (addBearDependencies spec bears) ↔
    (b ∈ bears ∧
      (spec.deps b).filter (fun d => decide (d ∈ bears)) ≠ []) := by
constructor
· intro h
  rcases List.mem_map.1 h with ⟨p, hp, hpk⟩
  rcases (mem_addBearDependencies spec bears p).1 hp with ⟨h1, h2, h3⟩
  subst hpk
  rw [h2] at h3
  exact ⟨h1, h3⟩
· rintro ⟨h1, h2⟩
  refine List.mem_map.2
    ⟨(b, (spec.deps b).filter (fun d => decide (d ∈ bears))), ?_, rfl⟩
  exact (mem_addBearDependencies spec bears _).2 ⟨h1, rfl, h2⟩

theorem keysOf_addBearDependencies_nodup (spec : BearSpec)
    (bears : List Bear) (hnd : bears.Nodup) :
    (keysOf (addBearDependencies spec bears)).Nodup := by
have hsub : List.Sublist (keysOf (addBearDependencies spec bears))
    (keysOf (bears.map
      (fun b => (b, (spec.deps b).filter (fun d => decide (d ∈ bears)))))) := by
  rw [addBearDependencies, keysOf, keysOf]
  exact (List.filter_sublist _).map _
have hkeys : keysOf (bears.map
    (fun b => (b, (spec.deps b).filter (fun d => decide (d ∈ bears))))) =
    bears := by
  rw [keysOf, List.map_map]
  exact List.map_id bears
rw [hkeys] at hsub
exact hnd.sublist hsub

theorem keys_nodup_entry_inj {α : Type} {m : List (Nat × α)}
    (hnd : (keysOf m).Nodup) {p q : Nat × α} (hp : p ∈ m) (hq : q ∈ m)
    (hk : p.1 = q.1) : p = q := by
induction m with
| nil => cases hp
| cons r rest ih =>
    rw [keysOf_cons, List.nodup_cons] at hnd
    rcases List.mem_cons.1 hp with hp' | hp' <;>
      rcases List.mem_cons.1 hq with hq' | hq'
    · rw [hp', hq']
    · exfalso
      apply hnd.1
      rw [← hp', hk]
      exact mem_keysOf_of_mem hq'
    · exfalso
      apply hnd.1
      rw [← hq', ← hk]
      exact mem_keysOf_of_mem hp'
    · exact ih hnd.2 hp' hq'

theorem mem_trackerResolve_fst (dd : List (Bear × List Bear)) (c : Bear)
    (p : Bear × List Bear) :
    p ∈ (trackerResolve dd c).1 ↔
    ∃ q ∈ dd, p = (q.1, q.2.filter (fun d => !(d == c))) ∧
      q.2.filter (fun d => !(d == c)) ≠ [] := by
rw [trackerResolve]
dsimp only
rw [List.mem_filter, List.mem_map]
constructor
· rintro ⟨⟨q, hq, hfq⟩, hne⟩
  subst hfq
  refine ⟨q, hq, rfl, ?_⟩
  intro h
  dsimp only at hne
  rw [h] at hne
  simp at hne
· rintro ⟨q, hq, hpq, hne⟩
  subst hpq
  exact ⟨⟨q, hq, rfl⟩, by simp [List.isEmpty_iff, hne]⟩

theorem mem_trackerResolve_snd (dd : List (Bear × List Bear)) (c : Bear)
    (b : Bear) :
    b ∈ (trackerResolve dd c).2 ↔
    ∃ q ∈ dd, q.1 = b ∧ q.2.filter (fun d => !(d == c)) = [] := by
rw [trackerResolve]
dsimp only
rw [List.mem_map]
constructor
· rintro ⟨p, hp, hpb⟩
  rw [List.mem_filter] at hp
  rcases hp with ⟨hp, hemp⟩
  rcases List.mem_map.1 hp with ⟨q, hq, hfq⟩
  subst hfq
  dsimp only at hemp hpb
  rw [List.isEmpty_iff] at hemp
  exact ⟨q, hq, hpb, hemp⟩
· rintro ⟨q, hq, hqb, hemp⟩
  refine ⟨(q.1, q.2.filter (fun d => !(d == c))), ?_, hqb⟩
  rw [List.mem_filter]
  refine ⟨List.mem_map.2 ⟨q, hq, rfl⟩, ?_⟩
  simp [List.isEmpty_iff, hemp]

theorem keysOf_trackerResolve_fst_sub (dd : List (Bear × List Bear))
    (c : Bear) :
    ∀ b ∈ keysOf (trackerResolve dd c).1, b ∈ keysOf dd := by
intro b hb
rcases List.mem_map.1 hb with ⟨p, hp, hpk⟩
rcases (mem_trackerResolve_fst dd c p).1 hp with ⟨q, hq, hpq, _⟩
subst hpk
rw [hpq]
exact mem_keysOf_of_mem (p := q) hq

theorem trackerResolve_snd_sub (dd : List (Bear × List Bear)) (c : Bear) :
    ∀ b ∈ (trackerResolve dd c).2, b ∈ keysOf dd := by
intro b hb
rcases (mem_trackerResolve_snd dd c b).1 hb with ⟨q, hq, hqb, _⟩
rw [← hqb]
exact mem_keysOf_of_mem hq

theorem keysOf_trackerResolve_fst_nodup (dd : List (Bear × List Bear))
    (c : Bear) (hnd : (keysOf dd).Nodup) :
    (keysOf (trackerResolve dd c).1).Nodup := by
have hsub : List.Sublist (keysOf (trackerResolve dd c).1)
    (keysOf (dd.map (fun p => (p.1, p.2.filter (fun d => !(d == c)))))) := by
  rw [trackerResolve, keysOf, keysOf]
  exact (List.filter_sublist _).map _
have hkeys : keysOf (dd.map (fun p => (p.1, p.2.filter (fun d => !(d == c))))) =
    keysOf dd := by
  rw [keysOf, keysOf, List.map_map]
  rfl
rw [hkeys] at hsub
exact hnd.sublist hsub

theorem trackerResolve_snd_nodup (dd : List (Bear × List Bear)) (c : Bear)
    (hnd : (keysOf dd).Nodup) : (trackerResolve dd c).2.Nodup := by
have hsub : List.Sublist (trackerResolve dd c).2
    (keysOf (dd.map (fun p => (p.1, p.2.filter (fun d => !(d == c)))))) := by
  rw [trackerResolve, keysOf]
  exact (List.filter_sublist _).map _
have hkeys : keysOf (dd.map (fun p => (p.1, p.2.filter (fun d => !(d == c))))) =
    keysOf dd := by
  rw [keysOf, keysOf, List.map_map]
  rfl
rw [hkeys] at hsub
exact hnd.sublist hsub

theorem trackerResolve_partition (dd : List (Bear × List Bear)) (c : Bear) :
    ∀ b ∈ keysOf dd,
      b ∈ keysOf (trackerResolve dd c).1 ∨ b ∈ (trackerResolve dd c).2 := by
intro b hb
rcases List.mem_map.1 hb with ⟨q, hq, hqk⟩
subst hqk
by_cases hemp : q.2.filter (fun d => !(d == c)) = []
· exact Or.inr ((mem_trackerResolve_snd dd c q.1).2 ⟨q, hq, rfl, hemp⟩)
· refine Or.inl ?_
  refine mem_keysOf_of_mem (p := (q.1, q.2.filter (fun d => !(d == c)))) ?_
  exact (mem_trackerResolve_fst dd c _).2 ⟨q, hq, rfl, hemp⟩

theorem trackerResolve_disjoint (dd : List (Bear × List Bear)) (c : Bear)
    (hnd : (keysOf dd).Nodup) :
    ∀ b ∈ (trackerResolve dd c).2, b ∉ keysOf (trackerResolve dd c).1 := by
intro b hb hbk
rcases (mem_trackerResolve_snd dd c b).1 hb with ⟨q, hq, hqb, hemp⟩
rcases List.mem_map.1 hbk with ⟨p, hp, hpk⟩
rcases (mem_trackerResolve_fst dd c p).1 hp with ⟨q', hq', hpq', hne⟩
have : q = q' := by
  apply keys_nodup_entry_inj hnd hq hq'
  rw [hqb, ← hpk, hpq']
subst this
exact hne (by rw [← hemp])

theorem rtInsertAll_alookup (spec : BearSpec) :
    ∀ (bs : List Bear) (m : List (Bear × List TaskId)) (k : Bear),
    alookup (rtInsertAll spec m bs) k =
    (if k ∈ bs then some (List.range (spec.tasks k).length)
     else alookup m k) := by
intro bs
induction bs with
| nil => intro m k; simp [rtInsertAll]
| cons b rest ih =>
    intro m k
    rw [rtInsertAll_cons, ih]
    by_cases hk : k ∈ rest
    · rw [if_pos hk, if_pos (List.mem_cons_of_mem b hk)]
    · rw [if_neg hk]
      by_cases hkb : k = b
      · subst hkb
        rw [if_pos (List.mem_cons_self k rest), alookup_aset_self]
      · rw [alookup_aset_ne m b k _ hkb, if_neg (by
          intro h
          rcases List.mem_cons.1 h with h | h
          · exact hkb h
          · exact hk h)]

theorem mem_keysOf_rtInsertAll (spec : BearSpec) (bs : List Bear)
    (m : List (Bear × List TaskId)) (k : Bear) :
    k ∈ keysOf (rtInsertAll spec m bs) ↔ k ∈ keysOf m ∨ k ∈ bs := by
rw [mem_keysOf_iff_isSome, rtInsertAll_alookup]
by_cases hk : k ∈ bs
· simp [hk]
· simp [hk, mem_keysOf_iff_isSome]

theorem keysOf_rtInsertAll_nodup (spec : BearSpec) :
    ∀ (bs : List Bear) (m : List (Bear × List TaskId)),
    (keysOf m).Nodup → bs.Nodup → (∀ b ∈ bs, b ∉ keysOf m) →
    (keysOf (rtInsertAll spec m bs)).Nodup := by
intro bs
induction bs with
| nil => intro m h _ _; exact h
| cons b rest ih =>
    intro m hm hbs hfresh
    rw [List.nodup_cons] at hbs
    rw [rtInsertAll_cons]
    apply ih
    · exact nodup_keysOf_aset hm
    · exact hbs.2
    · intro b' hb'
      rw [keysOf_aset_of_not_mem _ (hfresh b (List.mem_cons_self b rest))]
      intro hmem
      rcases List.mem_append.1 hmem with h | h
      · exact hfresh b' (List.mem_cons_of_mem b hb') h
      · rcases List.mem_singleton.1 h with h
        rw [h] at hb'
        exact hbs.1 hb'

theorem mem_rtInsertAll_iff (spec : BearSpec) :
    ∀ (bs : List Bear) (m : List (Bear × List TaskId))
      (p : Bear × List TaskId),
    (keysOf m).Nodup → bs.Nodup → (∀ b ∈ bs, b ∉ keysOf m) →
    (p ∈ rtInsertAll spec m bs ↔
      (p ∈ m ∨ (p.1 ∈ bs ∧ p.2 = List.range (spec.tasks p.1).length))) := by
intro bs
induction bs with
| nil => intro m p _ _ _; simp [rtInsertAll]
| cons b rest ih =>
    intro m p hm hbs hfresh
    rw [List.nodup_cons] at hbs
    rw [rtInsertAll_cons]
    rw [ih _ p (nodup_keysOf_aset hm) hbs.2 (by
      intro b' hb'
      rw [keysOf_aset_of_not_mem _ (hfresh b (List.mem_cons_self b rest))]
      intro hmem
      rcases List.mem_append.1 hmem with h | h
      · exact hfresh b' (List.mem_cons_of_mem b hb') h
      · rcases List.mem_singleton.1 h with h
        rw [h] at hb'
        exact hbs.1 hb')]
    rw [mem_aset_iff hm]
    constructor
    · rintro ((h | ⟨h, hne⟩) | ⟨h1, h2⟩)
      · refine Or.inr ⟨?_, ?_⟩
        · rw [h]
          exact List.mem_cons_self b rest
        · rw [h]
      · exact Or.inl h
      · exact Or.inr ⟨List.mem_cons_of_mem b h1, h2⟩
    · rintro (h | ⟨h1, h2⟩)
      · refine Or.inl (Or.inr ⟨h, ?_⟩)
        intro hpb
        apply hfresh b (List.mem_cons_self b rest)
        rw [← hpb]
        exact mem_keysOf_of_mem h
      · rcases List.mem_cons.1 h1 with h' | h'
        · refine Or.inl (Or.inl ?_)
          cases p with
          | mk a v =>
            dsimp only at h' h2
            subst h'
            rw [h2]
        · exact Or.inr ⟨h', h2⟩


/-- The state invariant of a session over input set `bears`, preserved by
every deliverable completion event.  It ties the three state components
together: `submitted` holds exactly the bears that are running or
resolved, a bear is in `dependency_dict` exactly when it is unsubmitted,
its entry is exactly its unresolved in-set dependencies, and a submitted
bear has all its in-set dependencies resolved. -/
structure CoreInv (spec : BearSpec) (bears : List Bear) (st : SchedState) :
    Prop where
rtKeysNodup : (keysOf st.runningTasks).Nodup
ddKeysNodup : (keysOf st.depDict).Nodup
subNodup : st.submitted.Nodup
resNodup : st.resolved.Nodup
subBears : ∀ b ∈ st.submitted, b ∈ bears
rtBears : ∀ p ∈ st.runningTasks, p.1 ∈ bears
ddChar : ∀ p ∈ st.depDict,
    p.2 = unresolvedDeps spec bears st.resolved p.1 ∧ p.2 ≠ [] ∧ p.1 ∈ bears
subIff : ∀ b : Bear,
    b ∈ st.submitted ↔ (b ∈ keysOf st.runningTasks ∨ b ∈ st.resolved)
rtResDisj : ∀ b ∈ keysOf st.runningTasks, b ∉ st.resolved
ddUnsub : ∀ b ∈ keysOf st.depDict, b ∉ st.submitted
unsubDd : ∀ b ∈ bears, b ∉ st.submitted → b ∈ keysOf st.depDict
subDepsRes : ∀ b ∈ st.submitted, ∀ d ∈ spec.deps b, d ∈ bears →
    d ∈ st.resolved

theorem coreInv_stopCheck (spec : BearSpec) (bears : List Bear)
    (st : SchedState) (h : CoreInv spec bears st) :
    CoreInv spec bears (stopCheck st) := by
rw [stopCheck]
split
· exact
    { rtKeysNodup := h.rtKeysNodup, ddKeysNodup := h.ddKeysNodup,
      subNodup := h.subNodup, resNodup := h.resNodup,
      subBears := h.subBears, rtBears := h.rtBears, ddChar := h.ddChar,
      subIff := h.subIff, rtResDisj := h.rtResDisj, ddUnsub := h.ddUnsub,
      unsubDd := h.unsubDd, subDepsRes := h.subDepsRes }
· exact h

theorem initState_eq (spec : BearSpec) (bears : List Bear) :
    initState spec bears =
    { runningTasks := rtInsertAll spec []
        (readyOf (addBearDependencies spec bears) bears),
      depDict := addBearDependencies spec bears,
      submitted := readyOf (addBearDependencies spec bears) bears,
      heldBack := heldOf (addBearDependencies spec bears) bears,
      resolved := [], sink := [], stopSignals := 0 } := by
rw [initState, scheduleBears_eq]
simp

theorem initState_coreInv (spec : BearSpec) (bears : List Bear)
    (hnd : bears.Nodup) : CoreInv spec bears (initState spec bears) := by
rw [initState_eq]
have hmemready : ∀ b : Bear,
    b ∈ readyOf (addBearDependencies spec bears) bears ↔
    (b ∈ bears ∧ alookup (addBearDependencies spec bears) b = none) := by
  intro b
  rw [readyOf, List.mem_filter]
  simp [Option.isNone_iff_eq_none]
have hsub : ∀ b ∈ readyOf (addBearDependencies spec bears) bears,
    b ∈ bears := fun b hb => ((hmemready b).1 hb).1
have hnodup : (readyOf (addBearDependencies spec bears) bears).Nodup :=
  hnd.filter _
have hfresh : ∀ b ∈ readyOf (addBearDependencies spec bears) bears,
    b ∉ keysOf ([] : List (Bear × List TaskId)) := by
  intro b _ h
  exact absurd h (List.not_mem_nil b)
refine
  { rtKeysNodup := ?_, ddKeysNodup := ?_, subNodup := ?_, resNodup := ?_,
    subBears := ?_, rtBears := ?_, ddChar := ?_, subIff := ?_,
    rtResDisj := ?_, ddUnsub := ?_, unsubDd := ?_, subDepsRes := ?_ }
· exact keysOf_rtInsertAll_nodup spec _ []
    (show (keysOf ([] : List (Bear × List TaskId))).Nodup from List.nodup_nil)
    hnodup hfresh
· exact keysOf_addBearDependencies_nodup spec bears hnd
· exact hnodup
· exact List.nodup_nil
· exact hsub
· intro p hp
  rw [mem_rtInsertAll_iff spec _ [] p
    (show (keysOf ([] : List (Bear × List TaskId))).Nodup from List.nodup_nil)
    hnodup hfresh] at hp
  rcases hp with hp | ⟨hp, _⟩
  · exact absurd hp (List.not_mem_nil p)
  · exact hsub _ hp
· intro p hp
  rcases (mem_addBearDependencies spec bears p).1 hp with ⟨h1, h2, h3⟩
  refine ⟨?_, h3, h1⟩
  rw [h2, filter_bears_eq_unresolvedDeps_nil]
· intro b
  constructor
  · intro hb
    exact Or.inl ((mem_keysOf_rtInsertAll spec _ _ b).2 (Or.inr hb))
  · rintro (hb | hb)
    · rcases (mem_keysOf_rtInsertAll spec _ _ b).1 hb with h | h
      · exact absurd h (List.not_mem_nil b)
      · exact h
    · exact absurd hb (List.not_mem_nil b)
· intro b _ h
  exact absurd h (List.not_mem_nil b)
· intro b hb hsubm
  rcases (hmemready b).1 hsubm with ⟨_, hnone⟩
  exact absurd hb (alookup_eq_none_iff.1 hnone)
· intro b hb hnsub
  by_contra hk
  apply hnsub
  refine (hmemready b).2 ⟨hb, ?_⟩
  exact alookup_eq_none_iff.2 hk
· intro b hb d hd hdin
  rcases (hmemready b).1 hb with ⟨hbb, hnone⟩
  have hnk : b ∉ keysOf (addBearDependencies spec bears) :=
    alookup_eq_none_iff.1 hnone
  have hfil : (spec.deps b).filter (fun d => decide (d ∈ bears)) = [] := by
    by_contra hne
    exact hnk ((mem_keysOf_addBearDependencies spec bears b).2 ⟨hbb, hne⟩)
  have := List.filter_eq_nil_iff.1 hfil d hd
  simp [hdin] at this


/-- The completion handler preserves the scheduling invariant, for every
completion of a task whose bear has an entry in `running_tasks`. -/
theorem finishTask_coreInv (spec : BearSpec) (bears : List Bear)
    (st : SchedState) (bear : Bear) (task : TaskId) (ts : List TaskId)
    (inv : CoreInv spec bears st)
    (hlk : alookup st.runningTasks bear = some ts) :
    CoreInv spec bears (finishTask spec bear task st).1 := by
have hbk : bear ∈ keysOf st.runningTasks :=
  mem_keysOf_iff_isSome.2 (by rw [hlk]; rfl)
have hbsub : bear ∈ st.submitted := (inv.subIff bear).2 (Or.inl hbk)
have hbres : bear ∉ st.resolved := inv.rtResDisj bear hbk
have hbbears : bear ∈ bears := inv.subBears bear hbsub
have hbdd : bear ∉ keysOf st.depDict := fun h => inv.ddUnsub bear h hbsub
cases hget : (spec.tasks bear).get? task with
| none =>
    rw [finishTask_oob spec bear task st hget]
    exact inv
| some o =>
    cases o with
    | fault =>
        rw [finishTask_fault spec bear task st hget]
        exact inv
    | ok rs =>
        by_cases hf : ts.filter (fun t => !(t == task)) = []
        · rw [finishTask_ok_done spec bear task st ts rs hget hlk hf]
          apply coreInv_stopCheck
          have hdisj : ∀ b ∈ (trackerResolve st.depDict bear).2,
              b ∉ keysOf (trackerResolve st.depDict bear).1 :=
            trackerResolve_disjoint _ _ inv.ddKeysNodup
          have hnewSched :
              readyOf (trackerResolve st.depDict bear).1
                (trackerResolve st.depDict bear).2 =
              (trackerResolve st.depDict bear).2 := by
            rw [readyOf, List.filter_eq_self]
            intro b hb
            rw [Option.isNone_iff_eq_none, alookup_eq_none_iff]
            exact hdisj b hb
          rw [hnewSched]
          have hnr_dd : ∀ b ∈ (trackerResolve st.depDict bear).2,
              b ∈ keysOf st.depDict := trackerResolve_snd_sub _ _
          have hnr_unsub : ∀ b ∈ (trackerResolve st.depDict bear).2,
              b ∉ st.submitted := fun b hb => inv.ddUnsub b (hnr_dd b hb)
          have hnr_bears : ∀ b ∈ (trackerResolve st.depDict bear).2,
              b ∈ bears := by
            intro b hb
            rcases (mem_trackerResolve_snd _ _ b).1 hb with ⟨q, hq, hqb, _⟩
            have := (inv.ddChar q hq).2.2
            rw [← hqb]
            exact this
          have hnr_nres : ∀ b ∈ (trackerResolve st.depDict bear).2,
              b ∉ st.resolved := by
            intro b hb hres
            exact hnr_unsub b hb ((inv.subIff b).2 (Or.inr hres))
          have hnr_nkeys : ∀ b ∈ (trackerResolve st.depDict bear).2,
              b ∉ keysOf st.runningTasks := by
            intro b hb hkeys
            exact hnr_unsub b hb ((inv.subIff b).2 (Or.inl hkeys))
          have hnr_nodup : (trackerResolve st.depDict bear).2.Nodup :=
            trackerResolve_snd_nodup _ _ inv.ddKeysNodup
          have hnr_nbear : ∀ b ∈ (trackerResolve st.depDict bear).2,
              b ≠ bear := by
            intro b hb h
            rw [h] at hb
            exact hbdd (hnr_dd bear hb)
          have hnr_empty : ∀ b ∈ (trackerResolve st.depDict bear).2,
              unresolvedDeps spec bears (st.resolved ++ [bear]) b = [] := by
            intro b hb
            rcases (mem_trackerResolve_snd _ _ b).1 hb with ⟨q, hq, hqb, hemp⟩
            have hchar := (inv.ddChar q hq).1
            rw [hchar, unresolvedDeps_filter] at hemp
            rw [← hqb]
            exact hemp
          have hfst_char : ∀ p ∈ (trackerResolve st.depDict bear).1,
              p.2 = unresolvedDeps spec bears (st.resolved ++ [bear]) p.1 ∧
              p.2 ≠ [] ∧ p.1 ∈ bears := by
            intro p hp
            rcases (mem_trackerResolve_fst _ _ p).1 hp with ⟨q, hq, hpq, hne⟩
            rcases inv.ddChar q hq with ⟨hc1, _, hc3⟩
            subst hpq
            dsimp only
            refine ⟨?_, hne, hc3⟩
            rw [hc1, unresolvedDeps_filter]
          have hfst_sub : ∀ b ∈ keysOf (trackerResolve st.depDict bear).1,
              b ∈ keysOf st.depDict := keysOf_trackerResolve_fst_sub _ _
          have hfst_nodup :=
            keysOf_trackerResolve_fst_nodup st.depDict bear inv.ddKeysNodup
          have hpart := trackerResolve_partition st.depDict bear
          have hkeys_aset :
              keysOf (aset st.runningTasks bear ([] : List TaskId)) =
              keysOf st.runningTasks := keysOf_aset_of_mem _ hbk
          have hfresh : ∀ b ∈ (trackerResolve st.depDict bear).2,
              b ∉ keysOf (aset st.runningTasks bear ([] : List TaskId)) := by
            intro b hb
            rw [hkeys_aset]
            exact hnr_nkeys b hb
          have haset_nodup :
              (keysOf (aset st.runningTasks bear ([] : List TaskId))).Nodup := by
            rw [hkeys_aset]
            exact inv.rtKeysNodup
          have hka : ∀ k : Bear,
              k ∈ keysOf (adel (rtInsertAll spec
                (aset st.runningTasks bear [])
                (trackerResolve st.depDict bear).2) bear) ↔
              (k ≠ bear ∧ (k ∈ keysOf st.runningTasks ∨
                k ∈ (trackerResolve st.depDict bear).2)) := by
            intro k
            rw [mem_keysOf_adel_iff, mem_keysOf_rtInsertAll, hkeys_aset]
            tauto
          have hmemY : ∀ p : Bear × List TaskId,
              p ∈ adel (rtInsertAll spec (aset st.runningTasks bear [])
                (trackerResolve st.depDict bear).2) bear ↔
              ((p ∈ st.runningTasks ∧ p.1 ≠ bear) ∨
                (p.1 ∈ (trackerResolve st.depDict bear).2 ∧
                  p.2 = List.range (spec.tasks p.1).length)) := by
            intro p
            rw [mem_adel_iff,
              mem_rtInsertAll_iff spec _ _ p haset_nodup hnr_nodup hfresh,
              mem_aset_iff inv.rtKeysNodup]
            constructor
            · rintro ⟨(h | ⟨h, hne⟩) | ⟨h1, h2⟩, hpb⟩
              · exact absurd (by rw [h] : p.1 = bear) hpb
              · exact Or.inl ⟨h, hne⟩
              · exact Or.inr ⟨h1, h2⟩
            · rintro (⟨h, hne⟩ | ⟨h1, h2⟩)
              · exact ⟨Or.inl (Or.inr ⟨h, hne⟩), hne⟩
              · exact ⟨Or.inr ⟨h1, h2⟩, hnr_nbear p.1 h1⟩
          have hY_nodup : (keysOf (adel (rtInsertAll spec
              (aset st.runningTasks bear [])
              (trackerResolve st.depDict bear).2) bear)).Nodup :=
            nodup_keysOf_adel
              (keysOf_rtInsertAll_nodup spec _ _ haset_nodup hnr_nodup hfresh)
          refine
            { rtKeysNodup := ?_, ddKeysNodup := ?_, subNodup := ?_,
              resNodup := ?_, subBears := ?_, rtBears := ?_, ddChar := ?_,
              subIff := ?_, rtResDisj := ?_, ddUnsub := ?_, unsubDd := ?_,
              subDepsRes := ?_ }
          · exact hY_nodup
          · exact hfst_nodup
          · rw [List.nodup_append]
            exact ⟨inv.subNodup, hnr_nodup,
              fun a ha1 ha2 => hnr_unsub a ha2 ha1⟩
          · rw [List.nodup_append]
            refine ⟨inv.resNodup, List.nodup_singleton bear, ?_⟩
            intro a ha1 ha2
            rw [List.mem_singleton.1 ha2] at ha1
            exact hbres ha1
          · intro b hb
            rcases List.mem_append.1 hb with h | h
            · exact inv.subBears b h
            · exact hnr_bears b h
          · intro p hp
            rcases (hmemY p).1 hp with ⟨h, _⟩ | ⟨h1, _⟩
            · exact inv.rtBears p h
            · exact hnr_bears p.1 h1
          · exact hfst_char
          · intro b
            by_cases hb : b = bear
            · subst hb
              refine iff_of_true (List.mem_append.2 (Or.inl hbsub)) ?_
              exact Or.inr (List.mem_append.2
                (Or.inr (List.mem_singleton.2 rfl)))
            · rw [List.mem_append, hka b, List.mem_append,
                List.mem_singleton]
              have hold := inv.subIff b
              constructor
              · rintro (h | h)
                · rcases hold.1 h with h' | h'
                  · exact Or.inl ⟨hb, Or.inl h'⟩
                  · exact Or.inr (Or.inl h')
                · exact Or.inl ⟨hb, Or.inr h⟩
              · rintro (⟨_, h' | h'⟩ | h | h)
                · exact Or.inl (hold.2 (Or.inl h'))
                · exact Or.inr h'
                · exact Or.inl (hold.2 (Or.inr h))
                · exact absurd h hb
          · intro k hk hres
            rcases (hka k).1 hk with ⟨hne, hor⟩
            rcases List.mem_append.1 hres with h | h
            · rcases hor with h' | h'
              · exact inv.rtResDisj k h' h
              · exact hnr_nres k h' h
            · exact hne (List.mem_singleton.1 h)
          · intro k hk hsubm
            have hkd := hfst_sub k hk
            rcases List.mem_append.1 hsubm with h | h
            · exact inv.ddUnsub k hkd h
            · exact hdisj k h hk
          · intro b hb hnsub
            have hnsub1 : b ∉ st.submitted := fun h =>
              hnsub (List.mem_append.2 (Or.inl h))
            have hnsub2 : b ∉ (trackerResolve st.depDict bear).2 := fun h =>
              hnsub (List.mem_append.2 (Or.inr h))
            rcases hpart b (inv.unsubDd b hb hnsub1) with h | h
            · exact h
            · exact absurd h hnsub2
          · intro b hbmem d hd hdin
            rcases List.mem_append.1 hbmem with h | h
            · exact List.mem_append.2
                (Or.inl (inv.subDepsRes b h d hd hdin))
            · have hfil := List.filter_eq_nil_iff.1 (hnr_empty b h) d hd
              by_contra hdr
              apply hfil
              simp [hdin, hdr]
        · rw [finishTask_ok_more spec bear task st ts rs hget hlk hf]
          have hkeq : keysOf (aset st.runningTasks bear
              (ts.filter (fun t => !(t == task)))) =
              keysOf st.runningTasks := keysOf_aset_of_mem _ hbk
          refine
            { rtKeysNodup := ?_, ddKeysNodup := ?_, subNodup := ?_,
              resNodup := ?_, subBears := ?_, rtBears := ?_, ddChar := ?_,
              subIff := ?_, rtResDisj := ?_, ddUnsub := ?_, unsubDd := ?_,
              subDepsRes := ?_ }
          · rw [hkeq]
            exact inv.rtKeysNodup
          · exact inv.ddKeysNodup
          · exact inv.subNodup
          · exact inv.resNodup
          · exact inv.subBears
          · intro p hp
            rcases (mem_aset_iff inv.rtKeysNodup).1 hp with h | ⟨h, _⟩
            · rw [h]
              exact hbbears
            · exact inv.rtBears p h
          · exact inv.ddChar
          · intro b
            rw [hkeq]
            exact inv.subIff b
          · intro b hb
            rw [hkeq] at hb
            exact inv.rtResDisj b hb
          · exact inv.ddUnsub
          · intro b hb hnsub
            exact inv.unsubDd b hb hnsub
          · exact inv.subDepsRes


/-- The scheduling invariant holds after every deliverable completion
sequence. -/
theorem runEvents_coreInv (spec : BearSpec) (bears : List Bear) :
    ∀ (evs : List (Bear × TaskId)) (st : SchedState),
    validEvents spec st evs = true → CoreInv spec bears st →
    CoreInv spec bears (runEvents spec st evs) := by
intro evs
induction evs with
| nil => intro st _ h; exact h
| cons e rest ih =>
    intro st hv hinv
    rw [validEvents, Bool.and_eq_true] at hv
    rcases hv with ⟨h1, h2⟩
    rw [runEvents]
    apply ih _ h2
    cases hlkc : alookup st.runningTasks e.1 with
    | none => rw [hlkc] at h1; simp at h1
    | some ts' => exact finishTask_coreInv spec bears st e.1 e.2 ts' hinv hlkc

/-- C6: first conjunct — along every deliverable completion sequence
(hence at every intermediate state, since every prefix of a deliverable
sequence is deliverable), every bear that has been submitted has all of
its declared in-set dependencies already resolved; no bear's tasks ever
reach the pool while a dependency is unresolved.  Second conjunct — a bear
found still blocked at scheduling time is only appended to the held-back
(debug) log: nothing is submitted for it and no other state changes. -/
theorem no_submission_with_unresolved_deps :
    (∀ (spec : BearSpec) (bears : List Bear) (evs : List (Bear × TaskId)),
      bears.Nodup →
      validEvents spec (initState spec bears) evs = true →
      ∀ b ∈ (runSession spec bears evs).submitted,
        ∀ d ∈ spec.deps b, d ∈ bears →
          d ∈ (runSession spec bears evs).resolved) ∧
    (∀ (spec : BearSpec) (st : SchedState) (b : Bear),
      (alookup st.depDict b).isSome = true →
      scheduleBears spec [b] st =
        { st with heldBack := st.heldBack ++ [b] }) := by
constructor
· intro spec bears evs hnd hv b hb d hd hdin
  have hinv := runEvents_coreInv spec bears evs (initState spec bears) hv
    (initState_coreInv spec bears hnd)
  rw [runSession_eq] at hb ⊢
  exact hinv.subDepsRes b hb d hd hdin
· intro spec st b h
  rcases Option.isSome_iff_exists.1 h with ⟨v, hv⟩
  show scheduleOne spec st b = _
  unfold scheduleOne
  rw [hv]

theorem no_submission_with_unresolved_deps_witness :
    0 ∈ (runSession specD [0, 1, 2, 3] [(0, 0)]).resolved ∧
    scheduleBears specZ [1] (initState specZ [0, 1]) =
      { initState specZ [0, 1] with
        heldBack := (initState specZ [0, 1]).heldBack ++ [1] } :=
⟨no_submission_with_unresolved_deps.1 specD [0, 1, 2, 3] [(0, 0)]
    (by decide) (by decide) 1 (by decide) 0 (by decide) (by decide),
 no_submission_with_unresolved_deps.2 specZ (initState specZ [0, 1]) 1
    (by decide)⟩


/-! ### Handle-set invariant and liveness -/

/-- Every `running_tasks` entry holds a nonempty set of in-range handles
(true whenever every bear generates at least one task: entries are created
full and deleted as soon as they drain). -/
structure TaskInv (spec : BearSpec) (st : SchedState) : Prop where
entriesNonempty : ∀ p ∈ st.runningTasks, p.2 ≠ []
entriesBound : ∀ p ∈ st.runningTasks, ∀ t ∈ p.2,
    t < (spec.tasks p.1).length

theorem stopCheck_runningTasks (st : SchedState) :
    (stopCheck st).runningTasks = st.runningTasks := by
rw [stopCheck]
split
· rfl
· rfl

theorem trackerResolve_snd_bears (spec : BearSpec) (bears : List Bear)
    (st : SchedState) (bear : Bear) (inv : CoreInv spec bears st) :
    ∀ b ∈ (trackerResolve st.depDict bear).2, b ∈ bears := by
intro b hb
rcases (mem_trackerResolve_snd _ _ b).1 hb with ⟨q, hq, hqb, _⟩
have := (inv.ddChar q hq).2.2
rw [← hqb]
exact this

/-- Membership in the `running_tasks` dict produced by the resolve branch
of the completion handler. -/
theorem done_rt_mem (spec : BearSpec) (bears : List Bear) (st : SchedState)
    (bear : Bear) (inv : CoreInv spec bears st)
    (hbk : bear ∈ keysOf st.runningTasks) :
    ∀ p : Bear × List TaskId,
    p ∈ adel (rtInsertAll spec (aset st.runningTasks bear [])
        (readyOf (trackerResolve st.depDict bear).1
          (trackerResolve st.depDict bear).2)) bear ↔
    ((p ∈ st.runningTasks ∧ p.1 ≠ bear) ∨
      (p.1 ∈ (trackerResolve st.depDict bear).2 ∧
        p.2 = List.range (spec.tasks p.1).length)) := by
have hbsub : bear ∈ st.submitted := (inv.subIff bear).2 (Or.inl hbk)
have hbdd : bear ∉ keysOf st.depDict := fun h => inv.ddUnsub bear h hbsub
have hdisj : ∀ b ∈ (trackerResolve st.depDict bear).2,
    b ∉ keysOf (trackerResolve st.depDict bear).1 :=
  trackerResolve_disjoint _ _ inv.ddKeysNodup
have hnewSched :
    readyOf (trackerResolve st.depDict bear).1
      (trackerResolve st.depDict bear).2 =
    (trackerResolve st.depDict bear).2 := by
  rw [readyOf, List.filter_eq_self]
  intro b hb
  rw [Option.isNone_iff_eq_none, alookup_eq_none_iff]
  exact hdisj b hb
rw [hnewSched]
have hnr_unsub : ∀ b ∈ (trackerResolve st.depDict bear).2,
    b ∉ st.submitted :=
  fun b hb => inv.ddUnsub b (trackerResolve_snd_sub _ _ b hb)
have hnr_nkeys : ∀ b ∈ (trackerResolve st.depDict bear).2,
    b ∉ keysOf st.runningTasks := by
  intro b hb hkeys
  exact hnr_unsub b hb ((inv.subIff b).2 (Or.inl hkeys))
have hnr_nodup : (trackerResolve st.depDict bear).2.Nodup :=
  trackerResolve_snd_nodup _ _ inv.ddKeysNodup
have hnr_nbear : ∀ b ∈ (trackerResolve st.depDict bear).2, b ≠ bear := by
  intro b hb h
  rw [h] at hb
  exact hbdd (trackerResolve_snd_sub _ _ bear hb)
have hkeys_aset :
    keysOf (aset st.runningTasks bear ([] : List TaskId)) =
    keysOf st.runningTasks := keysOf_aset_of_mem _ hbk
have hfresh : ∀ b ∈ (trackerResolve st.depDict bear).2,
    b ∉ keysOf (aset st.runningTasks bear ([] : List TaskId)) := by
  intro b hb
  rw [hkeys_aset]
  exact hnr_nkeys b hb
have haset_nodup :
    (keysOf (aset st.runningTasks bear ([] : List TaskId))).Nodup := by
  rw [hkeys_aset]
  exact inv.rtKeysNodup
intro p
rw [mem_adel_iff,
  mem_rtInsertAll_iff spec _ _ p haset_nodup hnr_nodup hfresh,
  mem_aset_iff inv.rtKeysNodup]
constructor
· rintro ⟨(h | ⟨h, hne⟩) | ⟨h1, h2⟩, hpb⟩
  · exact absurd (by rw [h] : p.1 = bear) hpb
  · exact Or.inl ⟨h, hne⟩
  · exact Or.inr ⟨h1, h2⟩
· rintro (⟨h, hne⟩ | ⟨h1, h2⟩)
  · exact ⟨Or.inl (Or.inr ⟨h, hne⟩), hne⟩
  · exact ⟨Or.inr ⟨h1, h2⟩, hnr_nbear p.1 h1⟩

/-- The completion handler preserves the handle-set invariant when every
bear of the input set generates at least one task. -/
theorem finishTask_taskInv (spec : BearSpec) (bears : List Bear)
    (st : SchedState) (bear : Bear) (task : TaskId) (ts : List TaskId)
    (inv : CoreInv spec bears st) (ti : TaskInv spec st)
    (htasks : ∀ b ∈ bears, spec.tasks b ≠ [])
    (hlk : alookup st.runningTasks bear = some ts) :
    TaskInv spec (finishTask spec bear task st).1 := by
have hbk : bear ∈ keysOf st.runningTasks :=
  mem_keysOf_iff_isSome.2 (by rw [hlk]; rfl)
cases hget : (spec.tasks bear).get? task with
| none =>
    rw [finishTask_oob spec bear task st hget]
    exact ti
| some o =>
    cases o with
    | fault =>
        rw [finishTask_fault spec bear task st hget]
        exact ti
    | ok rs =>
        by_cases hf : ts.filter (fun t => !(t == task)) = []
        · rw [finishTask_ok_done spec bear task st ts rs hget hlk hf]
          have hmem := done_rt_mem spec bears st bear inv hbk
          refine { entriesNonempty := ?_, entriesBound := ?_ }
          · intro p hp
            rw [stopCheck_runningTasks] at hp
            rcases (hmem p).1 hp with ⟨h, _⟩ | ⟨h1, h2⟩
            · exact ti.entriesNonempty p h
            · rw [h2]
              intro hr
              rw [List.range_eq_nil] at hr
              exact htasks p.1
                (trackerResolve_snd_bears spec bears st bear inv p.1 h1)
                (List.length_eq_zero.1 hr)
          · intro p hp t ht
            rw [stopCheck_runningTasks] at hp
            rcases (hmem p).1 hp with ⟨h, _⟩ | ⟨h1, h2⟩
            · exact ti.entriesBound p h t ht
            · rw [h2] at ht
              exact List.mem_range.1 ht
        · rw [finishTask_ok_more spec bear task st ts rs hget hlk hf]
          refine { entriesNonempty := ?_, entriesBound := ?_ }
          · intro p hp
            rcases (mem_aset_iff inv.rtKeysNodup).1 hp with h | ⟨h, _⟩
            · rw [h]
              exact hf
            · exact ti.entriesNonempty p h
          · intro p hp t ht
            rcases (mem_aset_iff inv.rtKeysNodup).1 hp with h | ⟨h, _⟩
            · rw [h] at ht
              dsimp only at ht
              have h1 : t ∈ ts := (List.mem_filter.1 ht).1
              have h2 := ti.entriesBound (bear, ts) (alookup_mem hlk) t h1
              rw [h]
              exact h2
            · exact ti.entriesBound p h t ht

theorem initState_taskInv (spec : BearSpec) (bears : List Bear)
    (hnd : bears.Nodup) (htasks : ∀ b ∈ bears, spec.tasks b ≠ []) :
    TaskInv spec (initState spec bears) := by
rw [initState_eq]
have hnodup : (readyOf (addBearDependencies spec bears) bears).Nodup :=
  hnd.filter _
have hfresh : ∀ b ∈ readyOf (addBearDependencies spec bears) bears,
    b ∉ keysOf ([] : List (Bear × List TaskId)) := by
  intro b _ h
  exact absurd h (List.not_mem_nil b)
have hsub : ∀ b ∈ readyOf (addBearDependencies spec bears) bears,
    b ∈ bears := by
  intro b hb
  exact (List.mem_filter.1 hb).1
refine { entriesNonempty := ?_, entriesBound := ?_ }
· intro p hp
  rw [mem_rtInsertAll_iff spec _ [] p
    (show (keysOf ([] : List (Bear × List TaskId))).Nodup from List.nodup_nil)
    hnodup hfresh] at hp
  rcases hp with hp | ⟨hp1, hp2⟩
  · exact absurd hp (List.not_mem_nil p)
  · rw [hp2]
    intro hr
    rw [List.range_eq_nil] at hr
    exact htasks p.1 (hsub p.1 hp1) (List.length_eq_zero.1 hr)
· intro p hp t ht
  rw [mem_rtInsertAll_iff spec _ [] p
    (show (keysOf ([] : List (Bear × List TaskId))).Nodup from List.nodup_nil)
    hnodup hfresh] at hp
  rcases hp with hp | ⟨_, hp2⟩
  · exact absurd hp (List.not_mem_nil p)
  · rw [hp2] at ht
    exact List.mem_range.1 ht

theorem runEvents_taskInv (spec : BearSpec) (bears : List Bear)
    (htasks : ∀ b ∈ bears, spec.tasks b ≠ []) :
    ∀ (evs : List (Bear × TaskId)) (st : SchedState),
    validEvents spec st evs = true → CoreInv spec bears st →
    TaskInv spec st → TaskInv spec (runEvents spec st evs) := by
intro evs
induction evs with
| nil => intro st _ _ h; exact h
| cons e rest ih =>
    intro st hv hinv hti
    rw [validEvents, Bool.and_eq_true] at hv
    rcases hv with ⟨h1, h2⟩
    rw [runEvents]
    cases hlkc : alookup st.runningTasks e.1 with
    | none => rw [hlkc] at h1; simp at h1
    | some ts' =>
        exact ih _ h2
          (finishTask_coreInv spec bears st e.1 e.2 ts' hinv hlkc)
          (finishTask_taskInv spec bears st e.1 e.2 ts' hinv hti htasks hlkc)

/-- Under the handle-set invariant a maximal state (no deliverable event
left) has an empty `running_tasks` dict. -/
theorem maximal_rt_nil (spec : BearSpec) (st : SchedState)
    (ti : TaskInv spec st) (hmax : maximalState st = true) :
    st.runningTasks = [] := by
cases hrt : st.runningTasks with
| nil => rfl
| cons p rest =>
    exfalso
    rw [maximalState, List.all_eq_true] at hmax
    have hpmem : p ∈ st.runningTasks := by
      rw [hrt]
      exact List.mem_cons_self p rest
    have h1 := hmax p hpmem
    rw [List.isEmpty_iff] at h1
    exact ti.entriesNonempty p hpmem h1

/-- In a drained session state, acyclicity forces every input bear to have
been submitted: a rank-minimal unsubmitted bear would be blocked on an
unresolved in-set dependency of smaller rank. -/
theorem drained_all_submitted (spec : BearSpec) (bears : List Bear)
    (st : SchedState) (inv : CoreInv spec bears st)
    (hrt : st.runningTasks = []) (rank : Bear → Nat)
    (hacyc : ∀ b ∈ bears, ∀ d ∈ spec.deps b, d ∈ bears → rank d < rank b) :
    ∀ b ∈ bears, b ∈ st.submitted := by
have main : ∀ n : Nat, ∀ b ∈ bears, rank b < n → b ∈ st.submitted := by
  intro n
  induction n using Nat.strong_induction_on with
  | _ n ih =>
      intro b hb hrank
      by_contra hns
      have hk := inv.unsubDd b hb hns
      rcases List.mem_map.1 hk with ⟨p, hp, hpk⟩
      rcases inv.ddChar p hp with ⟨hc1, hc2, _⟩
      rcases List.exists_mem_of_ne_nil _ hc2 with ⟨d, hd⟩
      rw [hc1, unresolvedDeps, List.mem_filter] at hd
      rcases hd with ⟨hdeps, hpred⟩
      rw [Bool.and_eq_true, decide_eq_true_eq, decide_eq_true_eq] at hpred
      rcases hpred with ⟨hdbears, hdnres⟩
      rw [hpk] at hdeps
      have hrankd : rank d < rank b := hacyc b hb d hdeps hdbears
      have hdsub : d ∈ st.submitted :=
        ih (rank b) hrank d hdbears hrankd
      rcases (inv.subIff d).1 hdsub with h | h
      · rw [hrt] at h
        exact absurd h (List.not_mem_nil d)
      · exact hdnres h
intro b hb
exact main (rank b + 1) b hb (Nat.lt_succ_self _)


/-- C7, counterexample: `specZ` is an acyclic input graph (witnessed by
the identity ranking), and the empty completion sequence is a complete
session for it — `maximalState` shows no completion can ever be delivered
— yet bear 0 is resolved zero times (not once) and its dependent bear 1 is
submitted zero times (not once); the exactly-once claim fails on zero-task
bears. -/
theorem zero_task_graph_not_exactly_once :
    (∀ b ∈ ([0, 1] : List Bear), ∀ d ∈ specZ.deps b,
      d ∈ ([0, 1] : List Bear) → d < b) ∧
    maximalState (runSession specZ [0, 1] []) = true ∧
    (runSession specZ [0, 1] []).resolved.count 0 = 0 ∧
    (runSession specZ [0, 1] []).submitted.count 1 = 0 := by
decide

/-- C7, amended: for every acyclic input dependency graph in which every
bear generates at least one task, and every complete session (a
deliverable completion sequence after which no task is left in flight),
each input bear is submitted exactly once and resolved exactly once — in
particular the diamond is submitted once at each node, whatever the
completion order of the middle bears. -/
theorem acyclic_nonempty_tasks_run_exactly_once (spec : BearSpec)
    (bears : List Bear) (evs : List (Bear × TaskId)) (rank : Bear → Nat)
    (hnd : bears.Nodup)
    (htasks : ∀ b ∈ bears, spec.tasks b ≠ [])
    (hacyc : ∀ b ∈ bears, ∀ d ∈ spec.deps b, d ∈ bears → rank d < rank b)
    (hv : validEvents spec (initState spec bears) evs = true)
    (hmax : maximalState (runSession spec bears evs) = true) :
    ∀ b ∈ bears,
      (runSession spec bears evs).submitted.count b = 1 ∧
      (runSession spec bears evs).resolved.count b = 1 := by
rw [runSession_eq] at hmax ⊢
have hinv : CoreInv spec bears (runEvents spec (initState spec bears) evs) :=
  runEvents_coreInv spec bears evs (initState spec bears) hv
    (initState_coreInv spec bears hnd)
have hti : TaskInv spec (runEvents spec (initState spec bears) evs) :=
  runEvents_taskInv spec bears htasks evs (initState spec bears) hv
    (initState_coreInv spec bears hnd) (initState_taskInv spec bears hnd htasks)
have hrt := maximal_rt_nil spec _ hti hmax
have hall := drained_all_submitted spec bears _ hinv hrt rank hacyc
intro b hb
have hsub := hall b hb
refine ⟨List.count_eq_one_of_mem hinv.subNodup hsub, ?_⟩
have hres : b ∈ (runEvents spec (initState spec bears) evs).resolved := by
  rcases (hinv.subIff b).1 hsub with h | h
  · rw [hrt] at h
    exact absurd h (List.not_mem_nil b)
  · exact h
exact List.count_eq_one_of_mem hinv.resNodup hres

theorem acyclic_nonempty_tasks_run_exactly_once_witness :
    ((runSession specD [0, 1, 2, 3] [(0, 0), (2, 0), (1, 0), (3, 0)]).submitted.count 3 = 1 ∧
      (runSession specD [0, 1, 2, 3] [(0, 0), (2, 0), (1, 0), (3, 0)]).resolved.count 3 = 1) ∧
    ((runSession specD [0, 1, 2, 3] [(0, 0), (1, 0), (2, 0), (3, 0)]).submitted.count 3 = 1 ∧
      (runSession specD [0, 1, 2, 3] [(0, 0), (1, 0), (2, 0), (3, 0)]).resolved.count 3 = 1) :=
⟨acyclic_nonempty_tasks_run_exactly_once specD [0, 1, 2, 3]
    [(0, 0), (2, 0), (1, 0), (3, 0)] (fun b => b) (by decide) (by decide)
    (by decide) (by decide) (by decide) 3 (by decide),
 acyclic_nonempty_tasks_run_exactly_once specD [0, 1, 2, 3]
    [(0, 0), (1, 0), (2, 0), (3, 0)] (fun b => b) (by decide) (by decide)
    (by decide) (by decide) (by decide) 3 (by decide)⟩

end Coala
